import Mathlib

/-
Verification development for the WooCommerce webhook receiver
(src/server.ts of the customomnisendintegration repository).

The file shallowly embeds the parts of the server that the specified
properties talk about:

* the signature-validation middleware (validateWebhookSignature),
* the per-order upsert store (saveOrder) keyed by order number,
* the webhook ingestion handlers (order-created / order-updated),
* the admin orders listing and its sort comparator,
* the payload retrieval endpoint with its traversal guard, and
* the JSON pretty printer / parser pair used when payload files are
  written (JSON.stringify(payload, null, 2)) and read back (JSON.parse).

Machine-level details that cannot influence the stated properties are
abstracted: HMAC-SHA256/base64 is an opaque String function parameter,
the JS Date constructor is an opaque parser to epoch milliseconds
(returning none for an invalid date, i.e. a NaN timestamp), and JSON
numbers are modelled as integers.
-/

/- ===================== basic character/digit helpers ===================== -/

/-- Decimal digit character, as produced when serializing numbers. -/
def digitChar (d : Nat) : Char :=
  if d = 0 then '0' else if d = 1 then '1' else if d = 2 then '2'
  else if d = 3 then '3' else if d = 4 then '4' else if d = 5 then '5'
  else if d = 6 then '6' else if d = 7 then '7' else if d = 8 then '8'
  else '9'

/-- Decimal character sequence of a natural number (JS Number printing,
restricted to naturals). -/
def natChars (n : Nat) : List Char :=
  if n = 0 then ['0'] else (Nat.digits 10 n).reverse.map digitChar

/-- Decimal character sequence of an integer. -/
def intChars (i : Int) : List Char :=
  if i < 0 then '-' :: natChars i.natAbs else natChars i.toNat

/-- Take the longest run of leading decimal digits. -/
def takeDigits : List Char → List Char × List Char
  | [] => ([], [])
  | c :: cs =>
    if c.isDigit then
      let p := takeDigits cs
      (c :: p.1, p.2)
    else ([], c :: cs)

/-- Value of a run of decimal digit characters. -/
def digitsVal (ds : List Char) : Nat :=
  ds.foldl (fun a c => 10 * a + (c.toNat - 48)) 0

/-- Whitespace characters recognised by the JSON parser (and trimmed by
JS parseInt). -/
def isJsonWs (c : Char) : Bool :=
  c = ' ' || c = '\n' || c = '\t' || c = '\r'

/-- Drop leading whitespace. -/
def skipWs : List Char → List Char
  | [] => []
  | c :: cs => if isJsonWs c then skipWs cs else c :: cs

/- ===================== JS parseInt model ===================== -/

/-- Leading digit run interpreted as a number; none when there is no
leading digit (JS parseInt yields NaN there). -/
def digitsPrefixVal (cs : List Char) : Option Nat :=
  let p := takeDigits cs
  if p.1.isEmpty then none else some (digitsVal p.1)

/-- Model of JS parseInt(s) with radix 10: trim leading whitespace, an
optional sign, then the longest leading digit run; none models NaN.
(The automatic 0x hexadecimal prefix of parseInt is not modelled; no
claim depends on it.) -/
def parseIntJs (s : String) : Option Int :=
  match skipWs s.toList with
  | '-' :: rest => (digitsPrefixVal rest).map (fun n => -(n : Int))
  | '+' :: rest => (digitsPrefixVal rest).map (fun n => (n : Int))
  | cs => (digitsPrefixVal cs).map (fun n => (n : Int))

/- ===================== order records and the upsert store ===================== -/

/-- A WooCommerce order as far as the persistence logic inspects it: the
order number (the file key), the modification timestamp string, and an
opaque remainder standing for every other field of the JSON body. -/
structure WooCommerceOrder where
  number : String
  date_modified : String
  rest : String
deriving DecidableEq

/-- Content of a stored order file: either it parses back as an order
(JSON.parse succeeds on read) or it is corrupt text (JSON.parse throws). -/
inductive OrderFile where
  | jsonOrder (o : WooCommerceOrder)
  | notJson (raw : String)
deriving DecidableEq

/-- The orders directory: one file per order number
(path order_NUMBER.json is determined by the key). -/
abbrev OrdersStore := List (String × OrderFile)

def storeLookup : OrdersStore → String → Option OrderFile
  | [], _ => none
  | (k, v) :: t, n => if k = n then some v else storeLookup t n

def storeSet : OrdersStore → String → OrderFile → OrdersStore
  | [], n, v => [(n, v)]
  | (k, w) :: t, n, v => if k = n then (n, v) :: t else (k, w) :: storeSet t n v

/-- The JS comparison newDate <= existingDate performed by saveOrder on
two Date objects: each date string parses to epoch milliseconds, an
unparseable string gives NaN, and every relational comparison involving
NaN is false.  The date parser (the JS Date constructor) is abstract. -/
def jsDateLe (parseDate : String → Option Int) (a b : String) : Bool :=
  match parseDate a, parseDate b with
  | some x, some y => decide (x ≤ y)
  | _, _ => false

/-- Embedding of saveOrder from src/server.ts: read the existing file for
the order number; if it is absent or unreadable as JSON this is a create
and the incoming order is written; otherwise the incoming order is
written exactly when NOT (new date_modified <= stored date_modified)
under JS Date/NaN comparison semantics.  The model is total: the logged
write errors of the source do not change the resulting store contents
seen by later reads and are covered by the failure flags of the
ingestion handler model. -/
def saveOrder (parseDate : String → Option Int) (store : OrdersStore)
    (order : WooCommerceOrder) : OrdersStore :=
  match storeLookup store order.number with
  | some (OrderFile.jsonOrder existing) =>
    if jsDateLe parseDate order.date_modified existing.date_modified then
      store
    else
      storeSet store order.number (OrderFile.jsonOrder order)
  | some (OrderFile.notJson _) =>
    storeSet store order.number (OrderFile.jsonOrder order)
  | none =>
    storeSet store order.number (OrderFile.jsonOrder order)

/- ===================== signature validation middleware ===================== -/

/-- Branch taken by the signature middleware; every branch except
rejectMissing calls next() and lets the request proceed. -/
inductive SigDecision where
  | proceedSkipFlag
  | proceedNoSecret
  | proceedValid
  | proceedMismatch
  | rejectMissing
deriving DecidableEq

/-- Embedding of validateWebhookSignature from src/server.ts.  hmacBase64
abstracts crypto.createHmac('sha256', secret).update(body).digest('base64').
The signature header is an Option; a present-but-empty header is falsy in
JS and is treated like a missing one.  A mismatch logs and still calls
next() (the development-mode weakening). -/
def validateWebhookSignature (hmacBase64 : String → String → String)
    (skipValidation : Bool) (secret : String)
    (signature : Option String) (rawBody : Option String)
    (jsonBody : String) : SigDecision :=
  if skipValidation then SigDecision.proceedSkipFlag
  else if secret = "" then SigDecision.proceedNoSecret
  else
    match signature with
    | none => SigDecision.rejectMissing
    | some sig =>
      if sig = "" then SigDecision.rejectMissing
      else
        let calculated :=
          match rawBody with
          | some raw => hmacBase64 secret raw
          | none => hmacBase64 secret jsonBody
        if sig = calculated then SigDecision.proceedValid
        else SigDecision.proceedMismatch

/-- HTTP status produced directly by the middleware: 401 on a missing
signature, nothing otherwise (the request is handed to the handler). -/
def sigResponse (d : SigDecision) : Option Nat :=
  match d with
  | SigDecision.rejectMissing => some 401
  | _ => none

/- ===================== ingestion handlers ===================== -/

/-- Result of an ingestion handler: HTTP status, whether a payload file
was written, and the resulting orders store. -/
structure IngestResult where
  status : Nat
  payloadFileWritten : Bool
  orders : OrdersStore
deriving DecidableEq

/-- Embedding of the order-created / order-updated handler bodies: if no
payload could be obtained, the thrown error is caught and logged; if the
payload file write fails the error is caught and logged (and saveOrder is
not reached); if saveOrder fails its error is caught and logged.  In
every case the handler ends with res.status(200). -/
def ingestOrderWebhook (parseDate : String → Option Int)
    (payload : Option WooCommerceOrder)
    (writeFails : Bool) (saveFails : Bool)
    (orders : OrdersStore) : IngestResult :=
  match payload with
  | none => ⟨200, false, orders⟩
  | some order =>
    if writeFails then ⟨200, false, orders⟩
    else if saveFails then ⟨200, true, orders⟩
    else ⟨200, true, saveOrder parseDate orders order⟩

/-- A webhook POST as a whole: the signature middleware either answers
401 itself or the ingestion handler runs. -/
def orderWebhookEndpoint (hmacBase64 : String → String → String)
    (skipValidation : Bool) (secret : String)
    (signature rawBody : Option String) (jsonBody : String)
    (parseDate : String → Option Int)
    (payload : Option WooCommerceOrder)
    (writeFails saveFails : Bool)
    (orders : OrdersStore) : IngestResult :=
  match sigResponse (validateWebhookSignature hmacBase64 skipValidation
      secret signature rawBody jsonBody) with
  | some code => ⟨code, false, orders⟩
  | none => ingestOrderWebhook parseDate payload writeFails saveFails orders

/- ===================== admin orders listing ===================== -/

/-- The sort comparator of GET /admin/orders:
(a, b) => parseInt(b.orderNumber) - parseInt(a.orderNumber).
A NaN comparator result is treated as 0 by Array.prototype.sort. -/
def jsOrderCompare (a b : WooCommerceOrder) : Int :=
  match parseIntJs b.number, parseIntJs a.number with
  | some x, some y => x - y
  | _, _ => 0

/-- Stable insertion of an element arriving after everything already in
the sorted list: it is placed before the first element it compares
strictly less than. -/
def sortInsert (x : WooCommerceOrder) : List WooCommerceOrder → List WooCommerceOrder
  | [] => [x]
  | y :: ys =>
    if jsOrderCompare x y < 0 then x :: y :: ys else y :: sortInsert x ys

/-- Stable comparator sort (Array.prototype.sort is stable; on a
consistent comparator every stable sort produces the same output). -/
def jsSortOrders (l : List WooCommerceOrder) : List WooCommerceOrder :=
  l.foldl (fun acc x => sortInsert x acc) []

/-- Embedding of the GET /admin/orders listing over the parsed order
records: every stored order file is enumerated and the parsed records are
sorted with the parseInt comparator.  (The derived display fields
computed per record do not affect membership or order.) -/
def adminListOrders (orders : List WooCommerceOrder) : List WooCommerceOrder :=
  jsSortOrders orders

/-- Numeric key used by the comparator, defaulting to 0; meaningful only
when parseIntJs succeeds. -/
def numKey (o : WooCommerceOrder) : Int :=
  (parseIntJs o.number).getD 0

/-- The listing order the claim describes: adjacent records carry numeric
order numbers in non-increasing order (an entry without a numeric order
number has no place in such an order). -/
def descendingByNumber : List WooCommerceOrder → Bool
  | [] => true
  | [_] => true
  | a :: b :: t =>
    (match parseIntJs a.number, parseIntJs b.number with
     | some x, some y => decide (y ≤ x)
     | _, _ => false) && descendingByNumber (b :: t)

/- ===================== concrete instances used in closed statements ===================== -/

/-- A concrete stand-in for the abstract HMAC-base64 function, used only
to instantiate closed statements; never empty. -/
def demoHmac (secret body : String) : String :=
  "hmac:" ++ secret ++ ":" ++ body

/-- A concrete stand-in for the JS Date constructor on the timestamp
strings appearing in concrete instances, mapping each parseable string to
its epoch milliseconds and everything else to an invalid date. -/
def demoParseDate (s : String) : Option Int :=
  if s = "2024-01-01T00:00:00Z" then some 1704067200000
  else if s = "2024-01-01T12:00:00Z" then some 1704110400000
  else if s = "2024-01-02T00:00:00Z" then some 1704153600000
  else none

/-- Stored order with an unparseable modification date. -/
def orderBadDate : WooCommerceOrder :=
  ⟨"1001", "not-a-date", "bad"⟩

/-- The 2024-01-01T00:00:00Z version of order 1001. -/
def orderV1 : WooCommerceOrder :=
  ⟨"1001", "2024-01-01T00:00:00Z", "v1"⟩

/-- The 2024-01-01T12:00:00Z version of order 1001. -/
def orderV15 : WooCommerceOrder :=
  ⟨"1001", "2024-01-01T12:00:00Z", "v15"⟩

/-- The 2024-01-02T00:00:00Z version of order 1001. -/
def orderV2 : WooCommerceOrder :=
  ⟨"1001", "2024-01-02T00:00:00Z", "v2"⟩

/-- The overwrite condition the specification claims for saveOrder: the
incoming modification timestamp is strictly greater than the stored one
(which requires both to parse as dates). -/
def dmStrictlyNewer (parseDate : String → Option Int) (newDm oldDm : String) : Bool :=
  match parseDate newDm, parseDate oldDm with
  | some x, some y => decide (y < x)
  | _, _ => false

/-- The conditions under which the strictly-newer staleness check of
saveOrder cannot be evaluated and is bypassed: the stored file does not
parse as JSON, or either modification date fails to parse (NaN). -/
def staleCheckBypassed (parseDate : String → Option Int)
    (entry : OrderFile) (o : WooCommerceOrder) : Prop :=
  (∃ raw, entry = OrderFile.notJson raw) ∨
  (∃ ex, entry = OrderFile.jsonOrder ex ∧
    (parseDate o.date_modified = none ∨ parseDate ex.date_modified = none))

/-- A stored order with a non-numeric order number (the spec notes order
numbers are strings, not necessarily numeric). -/
def oApple : WooCommerceOrder :=
  ⟨"apple", "2024-01-01T00:00:00Z", "a"⟩

/-- Stored order number 5. -/
def oFive : WooCommerceOrder :=
  ⟨"5", "2024-01-01T00:00:00Z", "b"⟩

/-- Stored order number 3. -/
def oThree : WooCommerceOrder :=
  ⟨"3", "2024-01-01T00:00:00Z", "c"⟩

/-- Stored order number 7. -/
def oSeven : WooCommerceOrder :=
  ⟨"7", "2024-01-01T00:00:00Z", "d"⟩

/-- Descending order on the numeric keys: the relation the sorted listing
satisfies pairwise. -/
def descRel (a b : WooCommerceOrder) : Prop :=
  numKey b ≤ numKey a

/- ===================== JSON values ===================== -/

/-- JSON values as stored in payload files and served by the admin
endpoints.  Numbers are modelled as integers (floating point values are
outside the shallow embedding; the round-trip property is about the
structure of the document). -/
inductive Json where
  | null
  | bool (b : Bool)
  | num (n : Int)
  | str (s : String)
  | arr (elems : List Json)
  | obj (fields : List (String × Json))

/-- Lowercase hexadecimal digit character. -/
def hexDigitChar (n : Nat) : Char :=
  if n < 10 then digitChar n
  else if n = 10 then 'a' else if n = 11 then 'b' else if n = 12 then 'c'
  else if n = 13 then 'd' else if n = 14 then 'e' else 'f'

/-- JSON.stringify escaping of one string character: quote, backslash and
the named control characters get two-character escapes, other control
characters a lowercase u00XX escape, everything else is literal. -/
def jsonEscapeChar (c : Char) : List Char :=
  if c = '"' then ['\\', '"']
  else if c = '\\' then ['\\', '\\']
  else if c = '\n' then ['\\', 'n']
  else if c = '\r' then ['\\', 'r']
  else if c = '\t' then ['\\', 't']
  else if c = '\x08' then ['\\', 'b']
  else if c = '\x0c' then ['\\', 'f']
  else if c.toNat < 32 then
    ['\\', 'u', '0', '0', hexDigitChar (c.toNat / 16), hexDigitChar (c.toNat % 16)]
  else [c]

/-- Escape a whole string body. -/
def escapeChars : List Char → List Char
  | [] => []
  | c :: cs => jsonEscapeChar c ++ escapeChars cs

/-- Indentation: n spaces. -/
def indentChars (n : Nat) : List Char :=
  List.replicate n ' '

mutual

/-- JSON.stringify(v, null, 2) at the given indentation level: the exact
pretty-printed text the ingestion handlers write to payload files. -/
def printVal (ind : Nat) (j : Json) : List Char :=
  match j with
  | Json.null => ['n', 'u', 'l', 'l']
  | Json.bool true => ['t', 'r', 'u', 'e']
  | Json.bool false => ['f', 'a', 'l', 's', 'e']
  | Json.num i => intChars i
  | Json.str s => '"' :: (escapeChars s.data ++ ['"'])
  | Json.arr [] => ['[', ']']
  | Json.arr (x :: xs) =>
    '[' :: '\n' :: (printItems (ind + 2) x xs ++ '\n' :: (indentChars ind ++ [']']))
  | Json.obj [] => ['{', '}']
  | Json.obj ((k, v) :: ps) =>
    '{' :: '\n' :: (printFields (ind + 2) k v ps ++ '\n' :: (indentChars ind ++ ['}']))
termination_by sizeOf j

/-- Array items, each on its own indented line, separated by commas. -/
def printItems (ind : Nat) (x : Json) (xs : List Json) : List Char :=
  match xs with
  | [] => indentChars ind ++ printVal ind x
  | y :: ys =>
    indentChars ind ++ (printVal ind x ++ ',' :: '\n' :: printItems ind y ys)
termination_by 1 + sizeOf x + sizeOf xs

/-- Object fields, each on its own indented line as "key": value. -/
def printFields (ind : Nat) (k : String) (v : Json)
    (ps : List (String × Json)) : List Char :=
  match ps with
  | [] =>
    indentChars ind ++ ('"' :: (escapeChars k.data ++ '"' :: ':' :: ' ' :: printVal ind v))
  | (k2, v2) :: qs =>
    (indentChars ind ++ ('"' :: (escapeChars k.data ++ '"' :: ':' :: ' ' :: printVal ind v)))
      ++ ',' :: '\n' :: printFields ind k2 v2 qs
termination_by 1 + sizeOf v + sizeOf ps

end

/-- The exact file content the ingestion handlers write:
JSON.stringify(payload, null, 2). -/
def stringifyPretty (j : Json) : String :=
  String.mk (printVal 0 j)

mutual

/-- Node count of a JSON value; the recursion depth the parser needs. -/
def jsize (j : Json) : Nat :=
  match j with
  | Json.null => 1
  | Json.bool _ => 1
  | Json.num _ => 1
  | Json.str _ => 1
  | Json.arr l => 1 + jsizeL l
  | Json.obj l => 1 + jsizeF l
termination_by sizeOf j

/-- Node count of an array body. -/
def jsizeL (l : List Json) : Nat :=
  match l with
  | [] => 0
  | x :: xs => 1 + jsize x + jsizeL xs
termination_by sizeOf l

/-- Node count of an object body. -/
def jsizeF (l : List (String × Json)) : Nat :=
  match l with
  | [] => 0
  | (_, v) :: ps => 1 + jsize v + jsizeF ps
termination_by sizeOf l

end

/- ===================== JSON parser (JSON.parse model) ===================== -/

/-- Value of one hexadecimal digit character. -/
def hexVal (c : Char) : Option Nat :=
  if c.isDigit then some (c.toNat - 48)
  else if 'a' ≤ c ∧ c ≤ 'f' then some (c.toNat - 87)
  else if 'A' ≤ c ∧ c ≤ 'F' then some (c.toNat - 55)
  else none

/-- Decode a single-character escape. -/
def escDecode (e : Char) : Option Char :=
  if e = '"' then some '"'
  else if e = '\\' then some '\\'
  else if e = '/' then some '/'
  else if e = 'b' then some '\x08'
  else if e = 'f' then some '\x0c'
  else if e = 'n' then some '\n'
  else if e = 'r' then some '\r'
  else if e = 't' then some '\t'
  else none

/-- Parse a JSON string body after the opening quote, up to and past the
closing quote; raw control characters are rejected as JSON.parse does.
Fuel only bounds the number of steps; every step consumes at least one
character, so length-plus-one fuel never runs out.
(Surrogate-pair combination of two u-escapes is not modelled; the
printer never emits escapes above u001f.) -/
def parseStringBodyF : Nat → List Char → Option (List Char × List Char)
  | 0, _ => none
  | f + 1, input =>
    match input with
    | [] => none
    | c :: cs =>
      if c = '"' then some ([], cs)
      else if c = '\\' then
        match cs with
        | [] => none
        | e :: cs' =>
          if e = 'u' then
            match cs' with
            | h1 :: h2 :: h3 :: h4 :: cs2 =>
              match hexVal h1, hexVal h2, hexVal h3, hexVal h4 with
              | some a, some b, some c2, some d =>
                (parseStringBodyF f cs2).map
                  (fun p => (Char.ofNat (((a * 16 + b) * 16 + c2) * 16 + d) :: p.1, p.2))
              | _, _, _, _ => none
            | _ => none
          else
            match escDecode e with
            | some dc => (parseStringBodyF f cs').map (fun p => (dc :: p.1, p.2))
            | none => none
      else if c.toNat < 32 then none
      else (parseStringBodyF f cs).map (fun p => (c :: p.1, p.2))

/-- The string-body parser at its sufficient fuel. -/
def parseStringBody (cs : List Char) : Option (List Char × List Char) :=
  parseStringBodyF (cs.length + 1) cs

mutual

/-- Recursive-descent JSON value parser with a fuel bound on recursion
depth; returns the value and the unconsumed remainder.  Numbers are
parsed as (optionally signed) integers, matching the integer number
model. -/
def parseVal : Nat → List Char → Option (Json × List Char)
  | 0, _ => none
  | f + 1, cs =>
    match skipWs cs with
    | [] => none
    | c :: cs' =>
      if c.isDigit then
        let p := takeDigits (c :: cs')
        some (Json.num (Int.ofNat (digitsVal p.1)), p.2)
      else if c = '-' then
        let p := takeDigits cs'
        if p.1.isEmpty then none
        else some (Json.num (-(digitsVal p.1 : Int)), p.2)
      else if c = '"' then
        match parseStringBody cs' with
        | some (s, r) => some (Json.str (String.mk s), r)
        | none => none
      else if c = 'n' then
        match cs' with
        | 'u' :: 'l' :: 'l' :: r => some (Json.null, r)
        | _ => none
      else if c = 't' then
        match cs' with
        | 'r' :: 'u' :: 'e' :: r => some (Json.bool true, r)
        | _ => none
      else if c = 'f' then
        match cs' with
        | 'a' :: 'l' :: 's' :: 'e' :: r => some (Json.bool false, r)
        | _ => none
      else if c = '[' then
        match skipWs cs' with
        | c2 :: r2 =>
          if c2 = ']' then some (Json.arr [], r2)
          else
            match parseElems f cs' with
            | some (l, r) => some (Json.arr l, r)
            | none => none
        | [] => none
      else if c = '{' then
        match skipWs cs' with
        | c2 :: r2 =>
          if c2 = '}' then some (Json.obj [], r2)
          else
            match parseFields f cs' with
            | some (l, r) => some (Json.obj l, r)
            | none => none
        | [] => none
      else none

/-- Parse one or more comma-separated array elements and the closing
bracket. -/
def parseElems : Nat → List Char → Option (List Json × List Char)
  | 0, _ => none
  | f + 1, cs =>
    match parseVal f cs with
    | some (j, r) =>
      match skipWs r with
      | c :: r' =>
        if c = ',' then
          match parseElems f r' with
          | some (l, r2) => some (j :: l, r2)
          | none => none
        else if c = ']' then some ([j], r')
        else none
      | [] => none
    | none => none

/-- Parse one or more comma-separated object fields and the closing
brace. -/
def parseFields : Nat → List Char → Option (List (String × Json) × List Char)
  | 0, _ => none
  | f + 1, cs =>
    match skipWs cs with
    | c :: cs' =>
      if c = '"' then
        match parseStringBody cs' with
        | some (k, r) =>
          match skipWs r with
          | c2 :: r' =>
            if c2 = ':' then
              match parseVal f r' with
              | some (v, r2) =>
                match skipWs r2 with
                | c3 :: r3 =>
                  if c3 = ',' then
                    match parseFields f r3 with
                    | some (l, r4) => some ((String.mk k, v) :: l, r4)
                    | none => none
                  else if c3 = '}' then some ([(String.mk k, v)], r3)
                  else none
                | [] => none
              | none => none
            else none
          | [] => none
        | none => none
      else none
    | [] => none

end

/-- JSON.parse model: parse a complete document, requiring only trailing
whitespace after the value. -/
def parseJson (s : String) : Option Json :=
  match parseVal (s.data.length + 1) s.data with
  | some (j, r) => if skipWs r = [] then some j else none
  | none => none

/- ===================== payload filenames and paths ===================== -/

/-- Boolean list-prefix test. -/
def isPrefixOfL {α : Type} [DecidableEq α] : List α → List α → Bool
  | [], _ => true
  | _ :: _, [] => false
  | a :: as, b :: bs => if a = b then isPrefixOfL as bs else false

/-- Substring containment on character lists: the embedding of
String.includes used by the traversal guard. -/
def containsSeq (needle : List Char) : List Char → Bool
  | [] => needle.isEmpty
  | c :: t => isPrefixOfL needle (c :: t) || containsSeq needle t

/-- The traversal guard of GET /admin/payloads/:filename —
filename.includes('../') || filename.includes('..\\'). -/
def hasTraversal (filename : String) : Bool :=
  containsSeq ['.', '.', '/'] filename.data ||
    containsSeq ['.', '.', '\\'] filename.data

/-- Split a path string into segments at '/' (POSIX separator used by
path.join). -/
def splitSeg : List Char → List (List Char)
  | [] => [[]]
  | c :: cs =>
    if c = '/' then [] :: splitSeg cs
    else
      match splitSeg cs with
      | [] => [[c]]
      | s :: ss => (c :: s) :: ss

/-- One normalization step of path.join: empty and dot segments vanish,
a dot-dot segment removes the previous segment, anything else is kept. -/
def normStep (acc : List (List Char)) (seg : List Char) : List (List Char) :=
  if seg = [] then acc
  else if seg = ['.'] then acc
  else if seg = ['.', '.'] then acc.dropLast
  else acc ++ [seg]

/-- path.join(PAYLOADS_DIR, filename): the (already normalized, absolute)
base directory segments followed by the normalized filename segments. -/
def joinNorm (base : List (List Char)) (f : List Char) : List (List Char) :=
  (splitSeg f).foldl normStep base

/-- Filesystem entries: a path either resolves to a directory, a file
with string content, or nothing. -/
inductive FsEntry where
  | dir
  | file (content : String)
deriving DecidableEq

/-- Responses of GET /admin/payloads/:filename. -/
inductive PayloadResponse where
  | badRequest
  | notFound
  | serverError
  | okJson (j : Json)
  | okRaw (content : String)

/-- Embedding of GET /admin/payloads/:filename: reject traversal
filenames with 400 before joining; 404 when the joined path has no
readable entry; reading a directory throws (500 through the outer
catch); file content is served as parsed JSON when JSON.parse succeeds
and as raw text otherwise. -/
def getPayloadByFilename (fs : List (List Char) → Option FsEntry)
    (base : List (List Char)) (filename : String) : PayloadResponse :=
  if hasTraversal filename then PayloadResponse.badRequest
  else
    match fs (joinNorm base filename.data) with
    | none => PayloadResponse.notFound
    | some FsEntry.dir => PayloadResponse.serverError
    | some (FsEntry.file content) =>
      match parseJson content with
      | some j => PayloadResponse.okJson j
      | none => PayloadResponse.okRaw content

/-- True when the list does not start with a digit (a following character
cannot extend a parsed number). -/
def restOk : List Char → Bool
  | [] => true
  | c :: _ => !c.isDigit

/-- Base directory segments used by closed instances (standing for the
configured PAYLOADS_DIR). -/
def basePayloads : List (List Char) :=
  [['s', 'r', 'v'], ['p', 'a', 'y']]

/-- A one-file filesystem used by closed instances: a single stored
payload file inside the payloads directory. -/
def demoFs (p : List (List Char)) : Option FsEntry :=
  if p = [['s', 'r', 'v'], ['p', 'a', 'y'], ['a', '.', 'j']] then
    some (FsEntry.file "[]")
  else none

/-- A concrete order payload used in closed instances. -/
def demoJson : Json :=
  Json.obj [("status", Json.str "ok"),
            ("items", Json.arr [Json.num 1, Json.num (-2)]),
            ("flag", Json.bool true),
            ("note", Json.null)]

/-- A filesystem with one stored payload file whose content is the pretty
printed demoJson, at p.j inside the payloads directory. -/
def demoFs2 (p : List (List Char)) : Option FsEntry :=
  if p = basePayloads ++ [['p', '.', 'j']] then
    some (FsEntry.file (stringifyPretty demoJson))
  else none

/-- Round-trip statement for values at a given fuel: a printed value,
between any whitespace and any non-digit-leading remainder, parses back
to itself. -/
def PvalStmt (fuel : Nat) : Prop :=
  ∀ (ind : Nat) (j : Json) (ws rest : List Char),
    jsize j < fuel → (∀ c ∈ ws, isJsonWs c = true) → restOk rest = true →
    parseVal fuel (ws ++ (printVal ind j ++ rest)) = some (j, rest)

/-- Round-trip statement for printed nonempty array bodies followed by
the closing bracket. -/
def PelemsStmt (fuel : Nat) : Prop :=
  ∀ (ind : Nat) (x : Json) (xs : List Json) (ws tws rest : List Char),
    jsizeL (x :: xs) < fuel →
    (∀ c ∈ ws, isJsonWs c = true) → (∀ c ∈ tws, isJsonWs c = true) →
    parseElems fuel (ws ++ (printItems ind x xs ++ (tws ++ (']' :: rest))))
      = some (x :: xs, rest)

/-- Round-trip statement for printed nonempty object bodies followed by
the closing brace. -/
def PfieldsStmt (fuel : Nat) : Prop :=
  ∀ (ind : Nat) (k : String) (v : Json) (ps : List (String × Json)) (ws tws rest : List Char),
    jsizeF ((k, v) :: ps) < fuel →
    (∀ c ∈ ws, isJsonWs c = true) → (∀ c ∈ tws, isJsonWs c = true) →
    parseFields fuel (ws ++ (printFields ind k v ps ++ (tws ++ ('}' :: rest))))
      = some ((k, v) :: ps, rest)

/- ===================== store lemmas ===================== -/

theorem storeLookup_storeSet_self (st : OrdersStore) (n : String) (v : OrderFile) :
    storeLookup (storeSet st n v) n = some v := by
  induction st with
  | nil => simp [storeSet, storeLookup]
  | cons h t ih =>
    obtain ⟨k, w⟩ := h
    by_cases hk : k = n
    · simp [storeSet, hk, storeLookup]
    · simp [storeSet, hk, storeLookup, ih]

theorem ingest_status_200 (parseDate : String → Option Int)
    (payload : Option WooCommerceOrder) (writeFails saveFails : Bool)
    (orders : OrdersStore) :
    (ingestOrderWebhook parseDate payload writeFails saveFails orders).status = 200 := by
  cases payload with
  | none => rfl
  | some o =>
    by_cases hw : writeFails
    · simp [ingestOrderWebhook, hw]
    · by_cases hs : saveFails <;> simp [ingestOrderWebhook, hw, hs]

/- ===================== claim C1 ===================== -/

/-- C1: for every secret and body, supplying exactly the base64 HMAC-SHA256
digest of the raw body makes the middleware call next(): no error status is
produced for any configuration, and with validation active (flag off,
secret configured) the decision is the validated branch. -/
theorem valid_signature_proceeds (hmacBase64 : String → String → String)
    (skipValidation : Bool) (secret body jsonBody : String)
    (hne : hmacBase64 secret body ≠ "") :
    sigResponse (validateWebhookSignature hmacBase64 skipValidation secret
      (some (hmacBase64 secret body)) (some body) jsonBody) = none ∧
    (secret ≠ "" → validateWebhookSignature hmacBase64 false secret
      (some (hmacBase64 secret body)) (some body) jsonBody
      = SigDecision.proceedValid) := by
  constructor
  · by_cases hskip : skipValidation
    · simp [validateWebhookSignature, hskip, sigResponse]
    · by_cases hsec : secret = "" <;>
        simp [validateWebhookSignature, hskip, hsec, hne, sigResponse]
  · intro hsec
    simp [validateWebhookSignature, hsec, hne]

theorem valid_signature_proceeds_witness :
    demoHmac "s1" "body" ≠ "" ∧
    sigResponse (validateWebhookSignature demoHmac false "s1"
      (some (demoHmac "s1" "body")) (some "body") "jb") = none ∧
    validateWebhookSignature demoHmac false "s1"
      (some (demoHmac "s1" "body")) (some "body") "jb"
      = SigDecision.proceedValid := by
  refine ⟨by decide, ?_, ?_⟩
  · exact (valid_signature_proceeds demoHmac false "s1" "body" "jb" (by decide)).1
  · exact (valid_signature_proceeds demoHmac false "s1" "body" "jb" (by decide)).2 (by decide)

/- ===================== claim C2 ===================== -/

/-- C2 counterexample: a stored record whose date_modified does not parse
is overwritten by an incoming order even though the incoming timestamp is
not strictly greater than the stored one (neither NaN comparison holds),
refuting the claimed equivalence for arbitrary stored records. -/
theorem saveOrder_overwrite_iff_newer_counterexample :
    dmStrictlyNewer demoParseDate orderV1.date_modified orderBadDate.date_modified = false ∧
    saveOrder demoParseDate [("1001", OrderFile.jsonOrder orderBadDate)] orderV1
      ≠ [("1001", OrderFile.jsonOrder orderBadDate)] ∧
    storeLookup (saveOrder demoParseDate
      [("1001", OrderFile.jsonOrder orderBadDate)] orderV1) "1001"
      = some (OrderFile.jsonOrder orderV1) := by
  refine ⟨by decide, by decide, by decide⟩

/-- C2 amended: when the stored record parses and BOTH modification dates
parse as valid dates, saveOrder overwrites the stored record exactly when
the incoming date is strictly greater, and otherwise returns the store
untouched (and no error is raised: the function is total). -/
theorem saveOrder_overwrites_iff_strictly_newer (parseDate : String → Option Int)
    (st : OrdersStore) (o ex : WooCommerceOrder) (tNew tOld : Int)
    (hl : storeLookup st o.number = some (OrderFile.jsonOrder ex))
    (hn : parseDate o.date_modified = some tNew)
    (he : parseDate ex.date_modified = some tOld) :
    saveOrder parseDate st o =
      if tOld < tNew then storeSet st o.number (OrderFile.jsonOrder o) else st := by
  by_cases h : tNew ≤ tOld
  · have h1 : jsDateLe parseDate o.date_modified ex.date_modified = true := by
      simp [jsDateLe, hn, he, h]
    have h2 : ¬ tOld < tNew := by omega
    simp only [saveOrder, hl, h1, if_true, h2, if_false]
  · have h1 : jsDateLe parseDate o.date_modified ex.date_modified = false := by
      simp [jsDateLe, hn, he, h]
    have h2 : tOld < tNew := by omega
    simp only [saveOrder, hl, h1, Bool.false_eq_true, if_false, h2, if_true]

theorem saveOrder_overwrites_iff_strictly_newer_witness :
    storeLookup [("1001", OrderFile.jsonOrder orderV1)] orderV2.number
      = some (OrderFile.jsonOrder orderV1) ∧
    saveOrder demoParseDate [("1001", OrderFile.jsonOrder orderV1)] orderV2 =
      if (1704067200000 : Int) < 1704153600000 then
        storeSet [("1001", OrderFile.jsonOrder orderV1)] orderV2.number
          (OrderFile.jsonOrder orderV2)
      else [("1001", OrderFile.jsonOrder orderV1)] :=
  ⟨by decide,
   saveOrder_overwrites_iff_strictly_newer demoParseDate
     [("1001", OrderFile.jsonOrder orderV1)] orderV2 orderV1
     1704153600000 1704067200000 (by decide) (by decide) (by decide)⟩

/- ===================== claim C3 ===================== -/

/-- C3: two orders for the same (initially absent) order number with
parseable timestamps t1 < t2 leave the store holding the t2 version in
either arrival order. -/
theorem saveOrder_newest_wins_either_order (parseDate : String → Option Int)
    (st : OrdersStore) (o1 o2 : WooCommerceOrder) (t1 t2 : Int)
    (hnum : o1.number = o2.number)
    (h1 : parseDate o1.date_modified = some t1)
    (h2 : parseDate o2.date_modified = some t2)
    (hlt : t1 < t2)
    (habs : storeLookup st o1.number = none) :
    storeLookup (saveOrder parseDate (saveOrder parseDate st o1) o2) o1.number
      = some (OrderFile.jsonOrder o2) ∧
    storeLookup (saveOrder parseDate (saveOrder parseDate st o2) o1) o1.number
      = some (OrderFile.jsonOrder o2) := by
  constructor
  · have e1 : saveOrder parseDate st o1
        = storeSet st o1.number (OrderFile.jsonOrder o1) := by
      unfold saveOrder; rw [habs]
    rw [e1]
    have hl2 : storeLookup (storeSet st o1.number (OrderFile.jsonOrder o1)) o2.number
        = some (OrderFile.jsonOrder o1) := by
      rw [← hnum]; exact storeLookup_storeSet_self st o1.number _
    have hle : jsDateLe parseDate o2.date_modified o1.date_modified = false := by
      simp [jsDateLe, h1, h2]; omega
    simp only [saveOrder, hl2, hle, Bool.false_eq_true, if_false]
    rw [hnum]
    exact storeLookup_storeSet_self _ o2.number _
  · have habs2 : storeLookup st o2.number = none := by rw [← hnum]; exact habs
    have e1 : saveOrder parseDate st o2
        = storeSet st o2.number (OrderFile.jsonOrder o2) := by
      unfold saveOrder; rw [habs2]
    rw [e1]
    have hl2 : storeLookup (storeSet st o2.number (OrderFile.jsonOrder o2)) o1.number
        = some (OrderFile.jsonOrder o2) := by
      rw [hnum]; exact storeLookup_storeSet_self st o2.number _
    have hle : jsDateLe parseDate o1.date_modified o2.date_modified = true := by
      simp [jsDateLe, h1, h2]; omega
    simp only [saveOrder, hl2, hle, if_true]

theorem saveOrder_newest_wins_either_order_witness :
    storeLookup ([] : OrdersStore) orderV1.number = none ∧
    storeLookup (saveOrder demoParseDate (saveOrder demoParseDate [] orderV1) orderV2)
      orderV1.number = some (OrderFile.jsonOrder orderV2) ∧
    storeLookup (saveOrder demoParseDate (saveOrder demoParseDate [] orderV2) orderV1)
      orderV1.number = some (OrderFile.jsonOrder orderV2) := by
  refine ⟨by decide, ?_⟩
  exact saveOrder_newest_wins_either_order demoParseDate [] orderV1 orderV2
    1704067200000 1704153600000 (by decide) (by decide) (by decide) (by decide) (by decide)

/- ===================== claim C4 ===================== -/

/-- C4 counterexample: with the skip-validation flag set, a request with
no signature header is NOT rejected with 401 — the middleware proceeds —
so the missing-signature rejection is not enforced for every
configuration of secrets and flags. -/
theorem missing_signature_not_unconditional :
    validateWebhookSignature demoHmac true "default_secret_replace_me"
      none (some "rawbody") "jsonbody" = SigDecision.proceedSkipFlag ∧
    sigResponse (validateWebhookSignature demoHmac true "default_secret_replace_me"
      none (some "rawbody") "jsonbody") ≠ some 401 := by
  refine ⟨by decide, by decide⟩

/-- C4 amended: when the skip-validation flag is off and a (nonempty)
secret is configured, a missing signature header is rejected with 401. -/
theorem missing_signature_rejected_when_enforced
    (hmacBase64 : String → String → String) (secret : String)
    (rawBody : Option String) (jsonBody : String)
    (hsec : secret ≠ "") :
    validateWebhookSignature hmacBase64 false secret none rawBody jsonBody
      = SigDecision.rejectMissing ∧
    sigResponse (validateWebhookSignature hmacBase64 false secret none rawBody jsonBody)
      = some 401 := by
  have h : validateWebhookSignature hmacBase64 false secret none rawBody jsonBody
      = SigDecision.rejectMissing := by
    simp [validateWebhookSignature, hsec]
  exact ⟨h, by rw [h]; rfl⟩

theorem missing_signature_rejected_when_enforced_witness :
    ("default_secret_replace_me" : String) ≠ "" ∧
    validateWebhookSignature demoHmac false "default_secret_replace_me"
      none (some "rawbody") "jsonbody" = SigDecision.rejectMissing := by
  refine ⟨by decide, ?_⟩
  exact (missing_signature_rejected_when_enforced demoHmac
    "default_secret_replace_me" (some "rawbody") "jsonbody" (by decide)).1

/- ===================== claim C5 ===================== -/

/-- C5: with validation active, a present signature that differs from the
computed digest is logged as a mismatch but the request still proceeds,
and the sender receives 200 rather than 401. -/
theorem mismatch_signature_accepted (hmacBase64 : String → String → String)
    (secret sig body jsonBody : String)
    (parseDate : String → Option Int) (payload : Option WooCommerceOrder)
    (writeFails saveFails : Bool) (orders : OrdersStore)
    (hsec : secret ≠ "") (hsig : sig ≠ "")
    (hmm : sig ≠ hmacBase64 secret body) :
    validateWebhookSignature hmacBase64 false secret (some sig) (some body) jsonBody
      = SigDecision.proceedMismatch ∧
    (orderWebhookEndpoint hmacBase64 false secret (some sig) (some body) jsonBody
      parseDate payload writeFails saveFails orders).status = 200 := by
  have hv : validateWebhookSignature hmacBase64 false secret (some sig) (some body) jsonBody
      = SigDecision.proceedMismatch := by
    simp [validateWebhookSignature, hsec, hsig, hmm]
  refine ⟨hv, ?_⟩
  unfold orderWebhookEndpoint
  rw [hv]
  exact ingest_status_200 parseDate payload writeFails saveFails orders

theorem mismatch_signature_accepted_witness :
    ("s1" : String) ≠ "" ∧ ("bad" : String) ≠ "" ∧ "bad" ≠ demoHmac "s1" "body" ∧
    validateWebhookSignature demoHmac false "s1" (some "bad") (some "body") "jb"
      = SigDecision.proceedMismatch ∧
    (orderWebhookEndpoint demoHmac false "s1" (some "bad") (some "body") "jb"
      demoParseDate (some orderV1) false false []).status = 200 := by
  refine ⟨by decide, by decide, by decide, ?_⟩
  exact mismatch_signature_accepted demoHmac "s1" "bad" "body" "jb"
    demoParseDate (some orderV1) false false [] (by decide) (by decide) (by decide)

/- ===================== claim C7 ===================== -/

/-- C7: every request that passes the signature middleware is answered
with HTTP 200, for every combination of payload presence, payload-file
write failure and order-save failure: storage errors never become a
non-2xx response. -/
theorem accepted_webhook_always_200 (hmacBase64 : String → String → String)
    (skipValidation : Bool) (secret : String)
    (signature rawBody : Option String) (jsonBody : String)
    (parseDate : String → Option Int) (payload : Option WooCommerceOrder)
    (writeFails saveFails : Bool) (orders : OrdersStore)
    (hacc : validateWebhookSignature hmacBase64 skipValidation secret
      signature rawBody jsonBody ≠ SigDecision.rejectMissing) :
    (orderWebhookEndpoint hmacBase64 skipValidation secret signature rawBody jsonBody
      parseDate payload writeFails saveFails orders).status = 200 := by
  unfold orderWebhookEndpoint
  have hnone : sigResponse (validateWebhookSignature hmacBase64 skipValidation secret
      signature rawBody jsonBody) = none := by
    cases hd : validateWebhookSignature hmacBase64 skipValidation secret
        signature rawBody jsonBody with
    | rejectMissing => exact absurd hd hacc
    | proceedSkipFlag => rfl
    | proceedNoSecret => rfl
    | proceedValid => rfl
    | proceedMismatch => rfl
  rw [hnone]
  exact ingest_status_200 parseDate payload writeFails saveFails orders

theorem accepted_webhook_always_200_witness :
    validateWebhookSignature demoHmac false "s1" (some "bad") (some "body") "jb"
      ≠ SigDecision.rejectMissing ∧
    (orderWebhookEndpoint demoHmac false "s1" (some "bad") (some "body") "jb"
      demoParseDate (some orderV1) true true []).status = 200 := by
  refine ⟨by decide, ?_⟩
  exact accepted_webhook_always_200 demoHmac false "s1" (some "bad") (some "body") "jb"
    demoParseDate (some orderV1) true true [] (by decide)

/- ===================== claim C10 ===================== -/

/-- C10: the strictly-newer staleness check is bypassed whenever it
cannot be evaluated — a stored file that fails to parse as JSON is
treated as a create, and an unparseable date on either side (NaN
comparison) also lets the incoming order overwrite unconditionally. -/
theorem saveOrder_staleness_bypass (parseDate : String → Option Int)
    (st : OrdersStore) (o : WooCommerceOrder) (entry : OrderFile)
    (hl : storeLookup st o.number = some entry)
    (hb : staleCheckBypassed parseDate entry o) :
    saveOrder parseDate st o = storeSet st o.number (OrderFile.jsonOrder o) := by
  rcases hb with ⟨raw, rfl⟩ | ⟨ex, rfl, hnone⟩
  · simp only [saveOrder, hl]
  · have hle : jsDateLe parseDate o.date_modified ex.date_modified = false := by
      rcases hnone with h | h
      · simp [jsDateLe, h]
      · cases hq : parseDate o.date_modified <;> simp [jsDateLe, hq, h]
    simp only [saveOrder, hl, hle, Bool.false_eq_true, if_false]

theorem saveOrder_staleness_bypass_witness :
    saveOrder demoParseDate [("1001", OrderFile.notJson "oops")] orderV1
      = storeSet [("1001", OrderFile.notJson "oops")] orderV1.number
        (OrderFile.jsonOrder orderV1) ∧
    saveOrder demoParseDate [("1001", OrderFile.jsonOrder orderV2)] orderBadDate
      = storeSet [("1001", OrderFile.jsonOrder orderV2)] orderBadDate.number
        (OrderFile.jsonOrder orderBadDate) ∧
    saveOrder demoParseDate [("1001", OrderFile.jsonOrder orderBadDate)] orderV1
      = storeSet [("1001", OrderFile.jsonOrder orderBadDate)] orderV1.number
        (OrderFile.jsonOrder orderV1) :=
  ⟨saveOrder_staleness_bypass demoParseDate _ orderV1 (OrderFile.notJson "oops")
      (by decide) (Or.inl ⟨"oops", rfl⟩),
   saveOrder_staleness_bypass demoParseDate _ orderBadDate
      (OrderFile.jsonOrder orderV2) (by decide)
      (Or.inr ⟨orderV2, rfl, Or.inl (by decide)⟩),
   saveOrder_staleness_bypass demoParseDate _ orderV1
      (OrderFile.jsonOrder orderBadDate) (by decide)
      (Or.inr ⟨orderBadDate, rfl, Or.inr (by decide)⟩)⟩

/- ===================== sorting lemmas ===================== -/

theorem sortInsert_perm (x : WooCommerceOrder) (l : List WooCommerceOrder) :
    (sortInsert x l).Perm (x :: l) := by
  induction l with
  | nil => exact List.Perm.refl _
  | cons y ys ih =>
    by_cases h : jsOrderCompare x y < 0
    · simp only [sortInsert, h, if_true]
      exact List.Perm.refl _
    · simp only [sortInsert, h, if_false]
      exact (ih.cons y).trans (List.Perm.swap x y ys)

theorem jsSortOrders_perm_aux : ∀ (l acc : List WooCommerceOrder),
    (l.foldl (fun a x => sortInsert x a) acc).Perm (l ++ acc) := by
  intro l
  induction l with
  | nil => intro acc; simp
  | cons x xs ih =>
    intro acc
    have h1 := ih (sortInsert x acc)
    have h2 : (xs ++ sortInsert x acc).Perm (xs ++ x :: acc) :=
      List.Perm.append_left xs (sortInsert_perm x acc)
    have h3 : (xs ++ x :: acc).Perm (x :: (xs ++ acc)) := List.perm_middle
    exact (h1.trans h2).trans h3

theorem adminListOrders_perm (l : List WooCommerceOrder) :
    (adminListOrders l).Perm l := by
  have h := jsSortOrders_perm_aux l []
  simpa [adminListOrders, jsSortOrders] using h

theorem jsOrderCompare_eq (a b : WooCommerceOrder)
    (ha : (parseIntJs a.number).isSome = true)
    (hb : (parseIntJs b.number).isSome = true) :
    jsOrderCompare a b = numKey b - numKey a := by
  obtain ⟨x, hx⟩ := Option.isSome_iff_exists.mp hb
  obtain ⟨y, hy⟩ := Option.isSome_iff_exists.mp ha
  simp [jsOrderCompare, numKey, hx, hy]

theorem sortInsert_pairwise (x : WooCommerceOrder) (l : List WooCommerceOrder)
    (hx : (parseIntJs x.number).isSome = true)
    (hl : ∀ o ∈ l, (parseIntJs o.number).isSome = true)
    (hp : l.Pairwise descRel) :
    (sortInsert x l).Pairwise descRel := by
  induction l with
  | nil => simp [sortInsert]
  | cons y ys ih =>
    have hy : (parseIntJs y.number).isSome = true := hl y (by simp)
    have hys : ∀ o ∈ ys, (parseIntJs o.number).isSome = true :=
      fun o ho => hl o (by simp [ho])
    rcases List.pairwise_cons.mp hp with ⟨hyall, hpys⟩
    have hcmp := jsOrderCompare_eq x y hx hy
    by_cases h : jsOrderCompare x y < 0
    · have hxy : numKey y < numKey x := by omega
      simp only [sortInsert, h, if_true]
      refine List.pairwise_cons.mpr ⟨?_, hp⟩
      intro z hz
      rcases List.mem_cons.mp hz with rfl | hz'
      · exact le_of_lt hxy
      · exact le_trans (hyall z hz') (le_of_lt hxy)
    · have hxy : numKey x ≤ numKey y := by omega
      simp only [sortInsert, h, if_false]
      refine List.pairwise_cons.mpr ⟨?_, ih hys hpys⟩
      intro z hz
      rcases List.mem_cons.mp ((sortInsert_perm x ys).mem_iff.mp hz) with rfl | hz'
      · exact hxy
      · exact hyall z hz'

theorem jsSortOrders_pairwise_aux : ∀ (l acc : List WooCommerceOrder),
    (∀ o ∈ l, (parseIntJs o.number).isSome = true) →
    (∀ o ∈ acc, (parseIntJs o.number).isSome = true) →
    acc.Pairwise descRel →
    (l.foldl (fun a x => sortInsert x a) acc).Pairwise descRel := by
  intro l
  induction l with
  | nil => intro acc _ _ hp; simpa using hp
  | cons x xs ih =>
    intro acc hl hacc hp
    have hx := hl x (by simp)
    have hxs : ∀ o ∈ xs, (parseIntJs o.number).isSome = true :=
      fun o ho => hl o (by simp [ho])
    have hacc' : ∀ o ∈ sortInsert x acc, (parseIntJs o.number).isSome = true := by
      intro o ho
      rcases List.mem_cons.mp ((sortInsert_perm x acc).mem_iff.mp ho) with rfl | h'
      · exact hx
      · exact hacc o h'
    exact ih (sortInsert x acc) hxs hacc' (sortInsert_pairwise x acc hx hacc hp)

/- ===================== claim C9 ===================== -/

/-- C9 counterexample: with a non-numeric order number in the store, the
listing output is not in descending numeric order (parseInt yields NaN,
the comparator returns 0, and the entry simply stays where it was), so
the claim fails for stores whose order numbers are not all numeric. -/
theorem admin_orders_sorted_desc_counterexample :
    adminListOrders [oApple, oFive] = [oApple, oFive] ∧
    descendingByNumber (adminListOrders [oApple, oFive]) = false := by
  refine ⟨by decide, by decide⟩

/-- C9 amended: the listing returns a permutation of all stored order
records, and whenever every stored orderNumber parses as an integer via
parseInt the output is sorted in descending order of that numeric value.
(A record whose orderNumber does not parse makes the comparator return 0
against every neighbour and is not placed numerically.) -/
theorem admin_orders_sorted_desc (orders : List WooCommerceOrder)
    (h : ∀ o ∈ orders, (parseIntJs o.number).isSome = true) :
    (adminListOrders orders).Perm orders ∧
    (adminListOrders orders).Pairwise descRel := by
  refine ⟨adminListOrders_perm orders, ?_⟩
  have hp := jsSortOrders_pairwise_aux orders [] h (by simp) (by simp)
  simpa [adminListOrders, jsSortOrders] using hp

theorem admin_orders_sorted_desc_witness :
    (∀ o ∈ [oThree, oSeven, oFive], (parseIntJs o.number).isSome = true) ∧
    (adminListOrders [oThree, oSeven, oFive]).Perm [oThree, oSeven, oFive] ∧
    (adminListOrders [oThree, oSeven, oFive]).Pairwise descRel :=
  ⟨by decide, admin_orders_sorted_desc [oThree, oSeven, oFive] (by decide)⟩

/- ===================== path lemmas ===================== -/

theorem splitSeg_ne_nil : ∀ cs : List Char, splitSeg cs ≠ [] := by
  intro cs
  induction cs with
  | nil => simp [splitSeg]
  | cons c cs ih =>
    by_cases hc : c = '/'
    · simp [splitSeg, hc]
    · cases h : splitSeg cs with
      | nil => exact absurd h ih
      | cons s ss => simp [splitSeg, hc, h]

theorem splitSeg_mid_slash : ∀ (f s : List Char) (ss : List (List Char)),
    splitSeg f = s :: ss → ss ≠ [] → ∃ r, f = s ++ '/' :: r := by
  intro f
  induction f with
  | nil =>
    intro s ss h hne
    simp [splitSeg] at h
    exact absurd h.2 hne
  | cons c cs ih =>
    intro s ss h hne
    by_cases hc : c = '/'
    · subst hc
      have e : splitSeg ('/' :: cs) = [] :: splitSeg cs := by simp [splitSeg]
      rw [e] at h
      obtain ⟨hs, hss⟩ := List.cons_eq_cons.mp h
      subst hs
      exact ⟨cs, rfl⟩
    · cases h2 : splitSeg cs with
      | nil => exact absurd h2 (splitSeg_ne_nil cs)
      | cons t ts =>
        simp only [splitSeg, hc, if_false, h2] at h
        obtain ⟨hs, hss⟩ := List.cons_eq_cons.mp h
        subst hs
        subst hss
        obtain ⟨r, hr⟩ := ih t ts h2 hne
        exact ⟨r, by rw [hr]; simp⟩

theorem containsSeq_cons_false (n : List Char) (c : Char) (t : List Char)
    (h : containsSeq n (c :: t) = false) : containsSeq n t = false := by
  simp only [containsSeq, Bool.or_eq_false_iff] at h
  exact h.2

theorem segs_no_dotdot : ∀ (f : List Char),
    containsSeq ['.', '.', '/'] f = false →
    ∀ s ∈ (splitSeg f).dropLast, s ≠ ['.', '.'] := by
  intro f
  induction f with
  | nil => intro _ s hs; simp [splitSeg] at hs
  | cons c cs ih =>
    intro h s hs
    have hcs : containsSeq ['.', '.', '/'] cs = false :=
      containsSeq_cons_false _ c cs h
    by_cases hc : c = '/'
    · subst hc
      have e : splitSeg ('/' :: cs) = [] :: splitSeg cs := by simp [splitSeg]
      rw [e] at hs
      cases h2 : splitSeg cs with
      | nil => exact absurd h2 (splitSeg_ne_nil cs)
      | cons t ts =>
        rw [h2, List.dropLast_cons₂] at hs
        rcases List.mem_cons.mp hs with rfl | hs'
        · simp
        · exact ih hcs s (by rw [h2]; exact hs')
    · cases h2 : splitSeg cs with
      | nil => exact absurd h2 (splitSeg_ne_nil cs)
      | cons t ts =>
        simp only [splitSeg, hc, if_false, h2] at hs
        cases ts with
        | nil => simp at hs
        | cons u us =>
          rw [List.dropLast_cons₂] at hs
          rcases List.mem_cons.mp hs with rfl | hs'
          · intro hcon
            have hc1 : c = '.' := by
              have := List.cons_eq_cons.mp hcon
              exact this.1
            have ht : t = ['.'] := (List.cons_eq_cons.mp hcon).2
            obtain ⟨r, hr⟩ := splitSeg_mid_slash cs t (u :: us) h2 (by simp)
            rw [ht] at hr
            rw [hr, hc1] at h
            simp [containsSeq, isPrefixOfL] at h
          · refine ih hcs s ?_
            rw [h2, List.dropLast_cons₂]
            exact List.mem_cons_of_mem t hs'

theorem foldl_normStep_extend : ∀ (segs : List (List Char)) (acc : List (List Char)),
    (∀ s ∈ segs, s ≠ ['.', '.']) →
    ∃ t, segs.foldl normStep acc = acc ++ t := by
  intro segs
  induction segs with
  | nil => intro acc _; exact ⟨[], by simp⟩
  | cons s ss ih =>
    intro acc h
    have hs := h s (by simp)
    have hss : ∀ x ∈ ss, x ≠ ['.', '.'] := fun x hx => h x (by simp [hx])
    by_cases h1 : s = []
    · rw [List.foldl_cons]
      have e : normStep acc s = acc := by simp [normStep, h1]
      rw [e]
      exact ih acc hss
    · by_cases h2 : s = ['.']
      · rw [List.foldl_cons]
        have e : normStep acc s = acc := by simp [normStep, h1, h2]
        rw [e]
        exact ih acc hss
      · rw [List.foldl_cons]
        have e : normStep acc s = acc ++ [s] := by simp [normStep, h1, h2, hs]
        rw [e]
        obtain ⟨t, ht⟩ := ih (acc ++ [s]) hss
        exact ⟨[s] ++ t, by rw [ht, List.append_assoc]⟩

theorem joinNorm_no_traversal (base : List (List Char)) (f : List Char)
    (h : containsSeq ['.', '.', '/'] f = false) :
    joinNorm base f = base.dropLast ∨ ∃ t, joinNorm base f = base ++ t := by
  have hsegs := segs_no_dotdot f h
  have hne := splitSeg_ne_nil f
  obtain ⟨init, last, hsplit⟩ : ∃ i l, splitSeg f = i ++ [l] :=
    ⟨(splitSeg f).dropLast, (splitSeg f).getLast hne,
      (List.dropLast_append_getLast hne).symm⟩
  have hinit : ∀ s ∈ init, s ≠ ['.', '.'] := by
    intro s hsm
    apply hsegs
    rw [hsplit, List.dropLast_concat]
    exact hsm
  unfold joinNorm
  rw [hsplit, List.foldl_append]
  obtain ⟨mid, hmid⟩ := foldl_normStep_extend init base hinit
  rw [hmid, List.foldl_cons, List.foldl_nil]
  by_cases h1 : last = []
  · right; exact ⟨mid, by simp [normStep, h1]⟩
  · by_cases h2 : last = ['.']
    · right; exact ⟨mid, by simp [normStep, h1, h2]⟩
    · by_cases h3 : last = ['.', '.']
      · cases mid with
        | nil => left; simp [normStep, h1, h2, h3]
        | cons m ms =>
          right
          refine ⟨(m :: ms).dropLast, ?_⟩
          rw [h3]
          have e : normStep (base ++ m :: ms) ['.', '.']
              = (base ++ m :: ms).dropLast := by simp [normStep]
          rw [e, List.dropLast_append_cons]
      · right; exact ⟨mid ++ [last], by simp [normStep, h1, h2, h3]⟩

theorem isPrefixOfL_append {α : Type} [DecidableEq α] (l t : List α) :
    isPrefixOfL l (l ++ t) = true := by
  induction l with
  | nil => rfl
  | cons a as ih => simp [isPrefixOfL, ih]

theorem isPrefixOfL_dropLast {α : Type} [DecidableEq α] (l : List α) :
    isPrefixOfL l.dropLast l = true := by
  by_cases h : l = []
  · subst h; rfl
  · have e := List.dropLast_append_getLast h
    calc isPrefixOfL l.dropLast l
        = isPrefixOfL l.dropLast (l.dropLast ++ [l.getLast h]) := by rw [e]
      _ = true := isPrefixOfL_append _ _

/- ===================== claim C6 ===================== -/

/-- C6: a filename containing "../" or "..\\" is rejected with 400 before
any path is built, and on a filesystem where the payloads directory and
its ancestors are directories (never files), every file the endpoint
successfully reads lies strictly inside the payloads directory. -/
theorem payload_traversal_guard (fs : List (List Char) → Option FsEntry)
    (base : List (List Char)) (filename : String) :
    (hasTraversal filename = true →
      getPayloadByFilename fs base filename = PayloadResponse.badRequest) ∧
    ((∀ p c, isPrefixOfL p base = true → fs p ≠ some (FsEntry.file c)) →
      ∀ c, fs (joinNorm base filename.data) = some (FsEntry.file c) →
        hasTraversal filename = false →
        ∃ t, t ≠ [] ∧ joinNorm base filename.data = base ++ t) := by
  constructor
  · intro h; simp [getPayloadByFilename, h]
  · intro hwf c hfs hguard
    have hslash : containsSeq ['.', '.', '/'] filename.data = false := by
      simp only [hasTraversal, Bool.or_eq_false_iff] at hguard
      exact hguard.1
    rcases joinNorm_no_traversal base filename.data hslash with hdl | ⟨t, ht⟩
    · exfalso
      refine hwf (joinNorm base filename.data) c ?_ hfs
      rw [hdl]
      exact isPrefixOfL_dropLast base
    · cases t with
      | nil =>
        exfalso
        refine hwf (joinNorm base filename.data) c ?_ hfs
        rw [ht, List.append_nil]
        simpa using isPrefixOfL_append base []
      | cons a as => exact ⟨a :: as, by simp, ht⟩

theorem payload_traversal_guard_witness :
    getPayloadByFilename demoFs basePayloads "../../etc/passwd"
      = PayloadResponse.badRequest ∧
    (∃ t, t ≠ [] ∧ joinNorm basePayloads ("a.j".data) = basePayloads ++ t) := by
  constructor
  · exact (payload_traversal_guard demoFs basePayloads "../../etc/passwd").1 (by decide)
  · refine (payload_traversal_guard demoFs basePayloads "a.j").2 ?_ "[]" (by decide) (by decide)
    intro p c hp hcon
    by_cases h1 : p = [['s', 'r', 'v'], ['p', 'a', 'y'], ['a', '.', 'j']]
    · subst h1
      exact absurd hp (by decide)
    · simp [demoFs, h1] at hcon

/- ===================== character and digit lemmas ===================== -/

theorem digitChar_isDigit (d : Nat) : (digitChar d).isDigit = true := by
  unfold digitChar
  split_ifs <;> decide

theorem digitChar_toNat_sub (d : Nat) (h : d < 10) : (digitChar d).toNat - 48 = d := by
  interval_cases d <;> decide

theorem ws_not_digit (c : Char) (h : isJsonWs c = true) : c.isDigit = false := by
  simp [isJsonWs] at h
  rcases h with ((rfl | rfl) | rfl) | rfl <;> decide

theorem isDigit_not_ws (c : Char) (h : c.isDigit = true) : isJsonWs c = false := by
  cases hw : isJsonWs c
  · rfl
  · rw [ws_not_digit c hw] at h
    cases h

theorem isDigit_ne (c x : Char) (h : c.isDigit = true) (hx : x.isDigit = false) :
    c ≠ x := by
  intro he
  rw [he, hx] at h
  cases h

theorem skipWs_ws_append (ws cs : List Char) (h : ∀ c ∈ ws, isJsonWs c = true) :
    skipWs (ws ++ cs) = skipWs cs := by
  induction ws with
  | nil => rfl
  | cons w ws' ih =>
    have hw := h w (by simp)
    rw [List.cons_append]
    rw [show skipWs (w :: (ws' ++ cs)) = skipWs (ws' ++ cs) from by simp [skipWs, hw]]
    exact ih (fun c hc => h c (by simp [hc]))

theorem skipWs_nonws (c : Char) (cs : List Char) (h : isJsonWs c = false) :
    skipWs (c :: cs) = c :: cs := by
  simp [skipWs, h]

theorem indentChars_ws (n : Nat) : ∀ c ∈ indentChars n, isJsonWs c = true := by
  intro c hc
  have : c = ' ' := List.eq_of_mem_replicate (by simpa [indentChars] using hc)
  rw [this]; decide

theorem natChars_ne_nil (n : Nat) : natChars n ≠ [] := by
  by_cases hn : n = 0
  · simp [natChars, hn]
  · simp only [natChars, hn, if_false]
    intro h
    rw [List.map_eq_nil_iff, List.reverse_eq_nil_iff] at h
    exact hn (Nat.digits_eq_nil_iff_eq_zero.mp h)

theorem natChars_all_digits (n : Nat) : ∀ c ∈ natChars n, c.isDigit = true := by
  intro c hc
  by_cases hn : n = 0
  · simp [natChars, hn] at hc
    rw [hc]; decide
  · simp only [natChars, hn, if_false, List.mem_map, List.mem_reverse] at hc
    obtain ⟨d, _, rfl⟩ := hc
    exact digitChar_isDigit d

theorem digitsVal_natChars (n : Nat) : digitsVal (natChars n) = n := by
  by_cases hn : n = 0
  · subst hn; decide
  · unfold natChars digitsVal
    rw [if_neg hn, List.foldl_map]
    have e : ∀ (l : List Nat), (∀ d ∈ l, d < 10) → ∀ a : Nat,
        l.foldl (fun a d => 10 * a + ((digitChar d).toNat - 48)) a
          = l.foldl (fun a d => 10 * a + d) a := by
      intro l
      induction l with
      | nil => intro _ a; rfl
      | cons d ds ih =>
        intro hl a
        simp only [List.foldl_cons]
        rw [digitChar_toNat_sub d (hl d (by simp))]
        exact ih (fun x hx => hl x (by simp [hx])) _
    rw [e _ (fun d hd => Nat.digits_lt_base (by norm_num) (List.mem_reverse.mp hd)) 0]
    rw [List.foldl_reverse]
    have e2 : ∀ l : List Nat, l.foldr (fun x y => 10 * y + x) 0 = Nat.ofDigits 10 l := by
      intro l
      induction l with
      | nil => simp [Nat.ofDigits]
      | cons d ds ih => simp [Nat.ofDigits_cons, ih]; ring
    rw [e2]
    exact_mod_cast Nat.ofDigits_digits 10 n

theorem takeDigits_exact (ds rest : List Char)
    (hds : ∀ c ∈ ds, c.isDigit = true) (hrest : restOk rest = true) :
    takeDigits (ds ++ rest) = (ds, rest) := by
  induction ds with
  | nil =>
    cases rest with
    | nil => rfl
    | cons r rs =>
      have hr : r.isDigit = false := by
        simpa [restOk] using hrest
      simp [takeDigits, hr]
  | cons d ds' ih =>
    have hd := hds d (by simp)
    have e := ih (fun c hc => hds c (by simp [hc]))
    simp [takeDigits, hd, e]

theorem hexVal_hexDigitChar (m : Nat) (h : m < 16) : hexVal (hexDigitChar m) = some m := by
  interval_cases m <;> decide



theorem parseStringBodyF_escape : ∀ (s : List Char) (f : Nat) (rest : List Char),
    (escapeChars s).length < f →
    parseStringBodyF f (escapeChars s ++ ('"' :: rest)) = some (s, rest) := by
  intro s
  induction s with
  | nil =>
    intro f rest hf
    cases f with
    | zero => exact absurd hf (Nat.not_lt_zero _)
    | succ f' =>
      rw [show escapeChars [] = [] from rfl, List.nil_append]
      rfl
  | cons c cs ih =>
    intro f rest hf
    cases f with
    | zero => exact absurd hf (Nat.not_lt_zero _)
    | succ f' =>
      have hlen : (escapeChars (c :: cs)).length
          = (jsonEscapeChar c).length + (escapeChars cs).length := by
        simp [escapeChars]
      rw [show escapeChars (c :: cs) = jsonEscapeChar c ++ escapeChars cs from by
        simp [escapeChars]]
      rw [List.append_assoc]
      by_cases h1 : c = '"'
      · subst h1
        have hcs : (escapeChars cs).length < f' := by
          rw [hlen, show (jsonEscapeChar '"').length = 2 from rfl] at hf
          omega
        rw [show jsonEscapeChar '"' = ['\\', '"'] from rfl]
        rw [show parseStringBodyF (f' + 1)
              (['\\', '"'] ++ (escapeChars cs ++ ('"' :: rest)))
            = (parseStringBodyF f' (escapeChars cs ++ ('"' :: rest))).map
                (fun p => ('"' :: p.1, p.2)) from by rfl]
        rw [ih f' rest hcs]
        rfl
      · by_cases h2 : c = '\\'
        · subst h2
          have hcs : (escapeChars cs).length < f' := by
            rw [hlen, show (jsonEscapeChar '\\').length = 2 from rfl] at hf
            omega
          rw [show jsonEscapeChar '\\' = ['\\', '\\'] from rfl]
          rw [show parseStringBodyF (f' + 1)
                (['\\', '\\'] ++ (escapeChars cs ++ ('"' :: rest)))
              = (parseStringBodyF f' (escapeChars cs ++ ('"' :: rest))).map
                  (fun p => ('\\' :: p.1, p.2)) from by rfl]
          rw [ih f' rest hcs]
          rfl
        · by_cases h3 : c = '\n'
          · subst h3
            have hcs : (escapeChars cs).length < f' := by
              rw [hlen, show (jsonEscapeChar '\n').length = 2 from rfl] at hf
              omega
            rw [show jsonEscapeChar '\n' = ['\\', 'n'] from rfl]
            rw [show parseStringBodyF (f' + 1)
                  (['\\', 'n'] ++ (escapeChars cs ++ ('"' :: rest)))
                = (parseStringBodyF f' (escapeChars cs ++ ('"' :: rest))).map
                    (fun p => ('\n' :: p.1, p.2)) from by rfl]
            rw [ih f' rest hcs]
            rfl
          · by_cases h4 : c = '\r'
            · subst h4
              have hcs : (escapeChars cs).length < f' := by
                rw [hlen, show (jsonEscapeChar '\r').length = 2 from rfl] at hf
                omega
              rw [show jsonEscapeChar '\r' = ['\\', 'r'] from rfl]
              rw [show parseStringBodyF (f' + 1)
                    (['\\', 'r'] ++ (escapeChars cs ++ ('"' :: rest)))
                  = (parseStringBodyF f' (escapeChars cs ++ ('"' :: rest))).map
                      (fun p => ('\r' :: p.1, p.2)) from by rfl]
              rw [ih f' rest hcs]
              rfl
            · by_cases h5 : c = '\t'
              · subst h5
                have hcs : (escapeChars cs).length < f' := by
                  rw [hlen, show (jsonEscapeChar '\t').length = 2 from rfl] at hf
                  omega
                rw [show jsonEscapeChar '\t' = ['\\', 't'] from rfl]
                rw [show parseStringBodyF (f' + 1)
                      (['\\', 't'] ++ (escapeChars cs ++ ('"' :: rest)))
                    = (parseStringBodyF f' (escapeChars cs ++ ('"' :: rest))).map
                        (fun p => ('\t' :: p.1, p.2)) from by rfl]
                rw [ih f' rest hcs]
                rfl
              · by_cases h6 : c = '\x08'
                · subst h6
                  have hcs : (escapeChars cs).length < f' := by
                    rw [hlen, show (jsonEscapeChar '\x08').length = 2 from rfl] at hf
                    omega
                  rw [show jsonEscapeChar '\x08' = ['\\', 'b'] from rfl]
                  rw [show parseStringBodyF (f' + 1)
                        (['\\', 'b'] ++ (escapeChars cs ++ ('"' :: rest)))
                      = (parseStringBodyF f' (escapeChars cs ++ ('"' :: rest))).map
                          (fun p => ('\x08' :: p.1, p.2)) from by rfl]
                  rw [ih f' rest hcs]
                  rfl
                · by_cases h7 : c = '\x0c'
                  · subst h7
                    have hcs : (escapeChars cs).length < f' := by
                      rw [hlen, show (jsonEscapeChar '\x0c').length = 2 from rfl] at hf
                      omega
                    rw [show jsonEscapeChar '\x0c' = ['\\', 'f'] from rfl]
                    rw [show parseStringBodyF (f' + 1)
                          (['\\', 'f'] ++ (escapeChars cs ++ ('"' :: rest)))
                        = (parseStringBodyF f' (escapeChars cs ++ ('"' :: rest))).map
                            (fun p => ('\x0c' :: p.1, p.2)) from by rfl]
                    rw [ih f' rest hcs]
                    rfl
                  · by_cases h8 : c.toNat < 32
                    · have hesc : jsonEscapeChar c
                          = ['\\', 'u', '0', '0', hexDigitChar (c.toNat / 16),
                             hexDigitChar (c.toNat % 16)] := by
                        simp [jsonEscapeChar, h1, h2, h3, h4, h5, h6, h7, h8]
                      have hcs : (escapeChars cs).length < f' := by
                        rw [hlen, hesc] at hf
                        simp only [List.length_cons] at hf
                        omega
                      rw [hesc]
                      rw [show parseStringBodyF (f' + 1)
                            (['\\', 'u', '0', '0', hexDigitChar (c.toNat / 16),
                              hexDigitChar (c.toNat % 16)]
                              ++ (escapeChars cs ++ ('"' :: rest)))
                          = (match hexVal '0', hexVal '0',
                                hexVal (hexDigitChar (c.toNat / 16)),
                                hexVal (hexDigitChar (c.toNat % 16)) with
                              | some a, some b, some c2, some d =>
                                (parseStringBodyF f'
                                    (escapeChars cs ++ ('"' :: rest))).map
                                  (fun p =>
                                    (Char.ofNat (((a * 16 + b) * 16 + c2) * 16 + d)
                                      :: p.1, p.2))
                              | _, _, _, _ => none) from by rfl]
                      rw [hexVal_hexDigitChar (c.toNat / 16) (by omega)]
                      rw [hexVal_hexDigitChar (c.toNat % 16) (by omega)]
                      rw [show hexVal '0' = some 0 from rfl]
                      simp only [ih f' rest hcs, Option.map_some]
                      rw [show ((0 * 16 + 0) * 16 + c.toNat / 16) * 16 + c.toNat % 16
                          = c.toNat from by omega]
                      rw [Char.ofNat_toNat]
                      rfl
                    · have hesc : jsonEscapeChar c = [c] := by
                        simp [jsonEscapeChar, h1, h2, h3, h4, h5, h6, h7, h8]
                      have hcs : (escapeChars cs).length < f' := by
                        rw [hlen, hesc] at hf
                        simp only [List.length_cons] at hf
                        omega
                      rw [hesc, List.singleton_append]
                      simp only [parseStringBodyF]
                      rw [if_neg h1, if_neg h2, if_neg h8, ih f' rest hcs]
                      rfl

theorem parseStringBody_escape (s rest : List Char) :
    parseStringBody (escapeChars s ++ ('"' :: rest)) = some (s, rest) := by
  unfold parseStringBody
  apply parseStringBodyF_escape
  simp [List.length_append]
  omega

/- ===================== parser step lemmas ===================== -/

theorem restOk_ws_append (tws tail : List Char)
    (h : ∀ c ∈ tws, isJsonWs c = true) (htail : restOk tail = true) :
    restOk (tws ++ tail) = true := by
  cases tws with
  | nil => simpa using htail
  | cons w ws' =>
    have := ws_not_digit w (h w (by simp))
    simp [restOk, this]

theorem skipWs_to_head (ws : List Char) (c0 : Char) (t0 : List Char)
    (hws : ∀ c ∈ ws, isJsonWs c = true) (hc0 : isJsonWs c0 = false) :
    skipWs (ws ++ (c0 :: t0)) = c0 :: t0 := by
  rw [skipWs_ws_append ws _ hws]
  exact skipWs_nonws c0 t0 hc0

theorem parseVal_skip (f : Nat) (ws cs : List Char)
    (hws : ∀ c ∈ ws, isJsonWs c = true) :
    parseVal (f + 1) (ws ++ cs) = parseVal (f + 1) cs := by
  simp only [parseVal]
  rw [skipWs_ws_append ws cs hws]

theorem parseVal_step_null (f : Nat) (r : List Char) :
    parseVal (f + 1) ('n' :: 'u' :: 'l' :: 'l' :: r) = some (Json.null, r) := by rfl

theorem parseVal_step_true (f : Nat) (r : List Char) :
    parseVal (f + 1) ('t' :: 'r' :: 'u' :: 'e' :: r) = some (Json.bool true, r) := by rfl

theorem parseVal_step_false (f : Nat) (r : List Char) :
    parseVal (f + 1) ('f' :: 'a' :: 'l' :: 's' :: 'e' :: r)
      = some (Json.bool false, r) := by rfl

theorem parseVal_step_quote (f : Nat) (r : List Char) :
    parseVal (f + 1) ('"' :: r)
      = (match parseStringBody r with
         | some (s, r2) => some (Json.str (String.mk s), r2)
         | none => none) := by rfl

theorem parseVal_step_minus (f : Nat) (r : List Char) :
    parseVal (f + 1) ('-' :: r)
      = (if (takeDigits r).1.isEmpty then none
         else some (Json.num (-(digitsVal (takeDigits r).1 : Int)), (takeDigits r).2)) := by
  rfl

theorem parseVal_step_digit (f : Nat) (c0 : Char) (t0 : List Char)
    (h : c0.isDigit = true) :
    parseVal (f + 1) (c0 :: t0)
      = some (Json.num (Int.ofNat (digitsVal (takeDigits (c0 :: t0)).1)),
          (takeDigits (c0 :: t0)).2) := by
  simp only [parseVal]
  rw [skipWs_nonws c0 t0 (isDigit_not_ws c0 h)]
  simp only [h, if_true]

theorem parseVal_step_lbracket (f : Nat) (r : List Char) :
    parseVal (f + 1) ('[' :: r)
      = (match skipWs r with
         | c2 :: r2 =>
           if c2 = ']' then some (Json.arr [], r2)
           else
             match parseElems f r with
             | some (l, r3) => some (Json.arr l, r3)
             | none => none
         | [] => none) := by rfl

theorem parseVal_step_lbrace (f : Nat) (r : List Char) :
    parseVal (f + 1) ('{' :: r)
      = (match skipWs r with
         | c2 :: r2 =>
           if c2 = '}' then some (Json.obj [], r2)
           else
             match parseFields f r with
             | some (l, r3) => some (Json.obj l, r3)
             | none => none
         | [] => none) := by rfl

theorem parseElems_step (f : Nat) (cs : List Char) :
    parseElems (f + 1) cs
      = (match parseVal f cs with
         | some (j, r) =>
           (match skipWs r with
            | c :: r' =>
              if c = ',' then
                match parseElems f r' with
                | some (l, r2) => some (j :: l, r2)
                | none => none
              else if c = ']' then some ([j], r')
              else none
            | [] => none)
         | none => none) := by rfl

theorem parseFields_step (f : Nat) (cs : List Char) :
    parseFields (f + 1) cs
      = (match skipWs cs with
         | c :: cs' =>
           if c = '"' then
             match parseStringBody cs' with
             | some (k, r) =>
               (match skipWs r with
                | c2 :: r' =>
                  if c2 = ':' then
                    match parseVal f r' with
                    | some (v, r2) =>
                      (match skipWs r2 with
                       | c3 :: r3 =>
                         if c3 = ',' then
                           match parseFields f r3 with
                           | some (l, r4) => some ((String.mk k, v) :: l, r4)
                           | none => none
                         else if c3 = '}' then some ([(String.mk k, v)], r3)
                         else none
                       | [] => none)
                    | none => none
                  else none
                | [] => none)
             | none => none
           else none
         | [] => none) := by rfl

theorem jsize_pos (j : Json) : 1 ≤ jsize j := by
  cases j <;> simp [jsize]

theorem printVal_head (ind : Nat) (j : Json) :
    ∃ c t, printVal ind j = c :: t ∧ isJsonWs c = false ∧ c ≠ ']' ∧ c ≠ '}' := by
  cases j with
  | null => exact ⟨'n', ['u', 'l', 'l'], by simp [printVal], by decide, by decide, by decide⟩
  | bool b =>
    cases b with
    | true => exact ⟨'t', ['r', 'u', 'e'], by simp [printVal], by decide, by decide, by decide⟩
    | false =>
      exact ⟨'f', ['a', 'l', 's', 'e'], by simp [printVal], by decide, by decide, by decide⟩
  | num i =>
    by_cases hi : i < 0
    · exact ⟨'-', natChars i.natAbs, by simp [printVal, intChars, hi],
        by decide, by decide, by decide⟩
    · obtain ⟨c0, t0, he⟩ := List.exists_cons_of_ne_nil (natChars_ne_nil i.toNat)
      have hc0 : c0.isDigit = true := natChars_all_digits i.toNat c0 (by rw [he]; simp)
      exact ⟨c0, t0, by simp [printVal, intChars, hi, he], isDigit_not_ws c0 hc0,
        isDigit_ne c0 ']' hc0 (by decide), isDigit_ne c0 '}' hc0 (by decide)⟩
  | str s =>
    exact ⟨'"', escapeChars s.data ++ ['"'], by simp [printVal],
      by decide, by decide, by decide⟩
  | arr l =>
    cases l with
    | nil => exact ⟨'[', [']'], by simp [printVal], by decide, by decide, by decide⟩
    | cons x xs =>
      exact ⟨'[', '\n' :: (printItems (ind + 2) x xs ++ '\n' :: (indentChars ind ++ [']'])),
        by simp [printVal], by decide, by decide, by decide⟩
  | obj l =>
    cases l with
    | nil => exact ⟨'{', ['}'], by simp [printVal], by decide, by decide, by decide⟩
    | cons p ps =>
      obtain ⟨k, v⟩ := p
      exact ⟨'{', '\n' :: (printFields (ind + 2) k v ps ++ '\n' :: (indentChars ind ++ ['}'])),
        by simp [printVal], by decide, by decide, by decide⟩

theorem parseVal_int (f : Nat) (i : Int) (rest : List Char)
    (hrest : restOk rest = true) :
    parseVal (f + 1) (intChars i ++ rest) = some (Json.num i, rest) := by
  by_cases hi : i < 0
  · rw [show intChars i = '-' :: natChars i.natAbs from by simp [intChars, hi]]
    rw [List.cons_append, parseVal_step_minus]
    rw [takeDigits_exact (natChars i.natAbs) rest (natChars_all_digits _) hrest]
    have hne : (natChars i.natAbs).isEmpty = false := by
      obtain ⟨c0, t0, he⟩ := List.exists_cons_of_ne_nil (natChars_ne_nil i.natAbs)
      rw [he]; rfl
    dsimp only
    rw [hne]
    simp only [Bool.false_eq_true, if_false]
    rw [digitsVal_natChars]
    rw [show -((i.natAbs : Nat) : Int) = i from by omega]
  · rw [show intChars i = natChars i.toNat from by simp [intChars, hi]]
    obtain ⟨c0, t0, he⟩ := List.exists_cons_of_ne_nil (natChars_ne_nil i.toNat)
    have hd : c0.isDigit = true := natChars_all_digits i.toNat c0 (by rw [he]; simp)
    rw [he, List.cons_append, parseVal_step_digit f c0 (t0 ++ rest) hd]
    rw [show c0 :: (t0 ++ rest) = (c0 :: t0) ++ rest from rfl]
    rw [takeDigits_exact (c0 :: t0) rest (by rw [← he]; exact natChars_all_digits _) hrest]
    dsimp only
    rw [← he, digitsVal_natChars]
    rw [show (Int.ofNat i.toNat) = i from by
      rw [Int.ofNat_eq_natCast]; omega]

theorem parseVal_arr_go (f : Nat) (r r2 : List Char) (c2 : Char)
    (hpeek : skipWs r = c2 :: r2) (hne : c2 ≠ ']') :
    parseVal (f + 1) ('[' :: r)
      = (match parseElems f r with
         | some (l, r3) => some (Json.arr l, r3)
         | none => none) := by
  rw [parseVal_step_lbracket, hpeek]
  simp [hne]

theorem parseVal_obj_go (f : Nat) (r r2 : List Char) (c2 : Char)
    (hpeek : skipWs r = c2 :: r2) (hne : c2 ≠ '}') :
    parseVal (f + 1) ('{' :: r)
      = (match parseFields f r with
         | some (l, r3) => some (Json.obj l, r3)
         | none => none) := by
  rw [parseVal_step_lbrace, hpeek]
  simp [hne]

theorem parseVal_arr_nil (f : Nat) (r : List Char) :
    parseVal (f + 1) ('[' :: ']' :: r) = some (Json.arr [], r) := by rfl

theorem parseVal_obj_nil (f : Nat) (r : List Char) :
    parseVal (f + 1) ('{' :: '}' :: r) = some (Json.obj [], r) := by rfl

theorem pval_succ (f : Nat) (hE : PelemsStmt f) (hF : PfieldsStmt f) :
    PvalStmt (f + 1) := by
  intro ind j ws rest hsz hws hrest
  cases j with
  | null =>
    rw [show printVal ind Json.null = ['n', 'u', 'l', 'l'] from by simp [printVal]]
    rw [parseVal_skip f ws _ hws]
    exact parseVal_step_null f rest
  | bool b =>
    cases b with
    | true =>
      rw [show printVal ind (Json.bool true) = ['t', 'r', 'u', 'e'] from by
        simp [printVal]]
      rw [parseVal_skip f ws _ hws]
      exact parseVal_step_true f rest
    | false =>
      rw [show printVal ind (Json.bool false) = ['f', 'a', 'l', 's', 'e'] from by
        simp [printVal]]
      rw [parseVal_skip f ws _ hws]
      exact parseVal_step_false f rest
  | num i =>
    rw [show printVal ind (Json.num i) = intChars i from by simp [printVal]]
    rw [parseVal_skip f ws _ hws]
    exact parseVal_int f i rest hrest
  | str s =>
    rw [show printVal ind (Json.str s) = '"' :: (escapeChars s.data ++ ['"']) from by
      simp [printVal]]
    rw [parseVal_skip f ws _ hws]
    rw [show ('"' :: (escapeChars s.data ++ ['"'])) ++ rest
        = '"' :: (escapeChars s.data ++ ('"' :: rest)) from by simp]
    rw [parseVal_step_quote, parseStringBody_escape s.data rest]
  | arr l =>
    cases l with
    | nil =>
      rw [show printVal ind (Json.arr []) = ['[', ']'] from by simp [printVal]]
      rw [parseVal_skip f ws _ hws]
      exact parseVal_arr_nil f rest
    | cons x xs =>
      have hszL : jsizeL (x :: xs) < f := by
        rw [show jsize (Json.arr (x :: xs)) = 1 + jsizeL (x :: xs) from by
          simp [jsize]] at hsz
        omega
      rw [show printVal ind (Json.arr (x :: xs))
          = '[' :: '\n' :: (printItems (ind + 2) x xs ++ '\n' :: (indentChars ind ++ [']']))
          from by simp [printVal]]
      rw [parseVal_skip f ws _ hws]
      rw [show ('[' :: '\n' ::
            (printItems (ind + 2) x xs ++ '\n' :: (indentChars ind ++ [']']))) ++ rest
          = '[' :: ('\n' ::
            (printItems (ind + 2) x xs ++ (('\n' :: indentChars ind) ++ (']' :: rest))))
          from by simp]
      obtain ⟨c0, t0, hpv, hc0ws, hc0rb, hc0cb⟩ := printVal_head (ind + 2) x
      have hPI : ∃ Q, printItems (ind + 2) x xs
            ++ (('\n' :: indentChars ind) ++ (']' :: rest))
          = indentChars (ind + 2) ++ (printVal (ind + 2) x ++ Q) := by
        cases xs with
        | nil => exact ⟨('\n' :: indentChars ind) ++ (']' :: rest), by simp [printItems]⟩
        | cons y ys =>
          exact ⟨(',' :: '\n' :: printItems (ind + 2) y ys)
            ++ (('\n' :: indentChars ind) ++ (']' :: rest)), by simp [printItems]⟩
      obtain ⟨Q, hQ⟩ := hPI
      have hwsin : ∀ c ∈ '\n' :: indentChars (ind + 2), isJsonWs c = true := by
        intro c hc
        rcases List.mem_cons.mp hc with rfl | hc'
        · decide
        · exact indentChars_ws _ c hc'
      have hskipin : skipWs ('\n' ::
            (printItems (ind + 2) x xs ++ (('\n' :: indentChars ind) ++ (']' :: rest))))
          = c0 :: (t0 ++ Q) := by
        rw [hQ, hpv]
        rw [show '\n' :: (indentChars (ind + 2) ++ ((c0 :: t0) ++ Q))
            = ('\n' :: indentChars (ind + 2)) ++ (c0 :: (t0 ++ Q)) from by simp]
        exact skipWs_to_head _ c0 _ hwsin hc0ws
      rw [parseVal_arr_go f _ _ c0 hskipin hc0rb]
      have hElems : parseElems f ('\n' ::
            (printItems (ind + 2) x xs ++ (('\n' :: indentChars ind) ++ (']' :: rest))))
          = some (x :: xs, rest) := by
        have htws : ∀ c ∈ '\n' :: indentChars ind, isJsonWs c = true := by
          intro c hc
          rcases List.mem_cons.mp hc with rfl | hc'
          · decide
          · exact indentChars_ws _ c hc'
        have := hE (ind + 2) x xs ['\n'] ('\n' :: indentChars ind) rest hszL
          (by intro c hc; rcases List.mem_cons.mp hc with rfl | hc'
              · decide
              · simp at hc') htws
        simpa using this
      rw [hElems]
  | obj l =>
    cases l with
    | nil =>
      rw [show printVal ind (Json.obj []) = ['{', '}'] from by simp [printVal]]
      rw [parseVal_skip f ws _ hws]
      exact parseVal_obj_nil f rest
    | cons p ps =>
      obtain ⟨k, v⟩ := p
      have hszF : jsizeF ((k, v) :: ps) < f := by
        rw [show jsize (Json.obj ((k, v) :: ps)) = 1 + jsizeF ((k, v) :: ps) from by
          simp [jsize]] at hsz
        omega
      rw [show printVal ind (Json.obj ((k, v) :: ps))
          = '{' :: '\n' ::
            (printFields (ind + 2) k v ps ++ '\n' :: (indentChars ind ++ ['}']))
          from by simp [printVal]]
      rw [parseVal_skip f ws _ hws]
      rw [show ('{' :: '\n' ::
            (printFields (ind + 2) k v ps ++ '\n' :: (indentChars ind ++ ['}']))) ++ rest
          = '{' :: ('\n' ::
            (printFields (ind + 2) k v ps ++ (('\n' :: indentChars ind) ++ ('}' :: rest))))
          from by simp]
      have hPF : ∃ Q, printFields (ind + 2) k v ps
            ++ (('\n' :: indentChars ind) ++ ('}' :: rest))
          = indentChars (ind + 2) ++ ('"' :: Q) := by
        cases ps with
        | nil =>
          exact ⟨(escapeChars k.data ++ '"' :: ':' :: ' ' :: printVal (ind + 2) v)
            ++ (('\n' :: indentChars ind) ++ ('}' :: rest)), by simp [printFields]⟩
        | cons q qs =>
          obtain ⟨k2, v2⟩ := q
          exact ⟨(escapeChars k.data ++ '"' :: ':' :: ' ' :: printVal (ind + 2) v)
            ++ ((',' :: '\n' :: printFields (ind + 2) k2 v2 qs)
              ++ (('\n' :: indentChars ind) ++ ('}' :: rest))), by simp [printFields]⟩
      obtain ⟨Q, hQ⟩ := hPF
      have hwsin : ∀ c ∈ '\n' :: indentChars (ind + 2), isJsonWs c = true := by
        intro c hc
        rcases List.mem_cons.mp hc with rfl | hc'
        · decide
        · exact indentChars_ws _ c hc'
      have hskipin : skipWs ('\n' ::
            (printFields (ind + 2) k v ps ++ (('\n' :: indentChars ind) ++ ('}' :: rest))))
          = '"' :: Q := by
        rw [hQ]
        rw [show '\n' :: (indentChars (ind + 2) ++ ('"' :: Q))
            = ('\n' :: indentChars (ind + 2)) ++ ('"' :: Q) from by simp]
        exact skipWs_to_head _ '"' _ hwsin (by decide)
      rw [parseVal_obj_go f _ _ '"' hskipin (by decide)]
      have hFields : parseFields f ('\n' ::
            (printFields (ind + 2) k v ps ++ (('\n' :: indentChars ind) ++ ('}' :: rest))))
          = some ((k, v) :: ps, rest) := by
        have htws : ∀ c ∈ '\n' :: indentChars ind, isJsonWs c = true := by
          intro c hc
          rcases List.mem_cons.mp hc with rfl | hc'
          · decide
          · exact indentChars_ws _ c hc'
        have := hF (ind + 2) k v ps ['\n'] ('\n' :: indentChars ind) rest hszF
          (by intro c hc; rcases List.mem_cons.mp hc with rfl | hc'
              · decide
              · simp at hc') htws
        simpa using this
      rw [hFields]

theorem parseElems_comma_go (f : Nat) (cs r rtail : List Char) (j : Json)
    (hv : parseVal f cs = some (j, r)) (hpeek : skipWs r = ',' :: rtail) :
    parseElems (f + 1) cs
      = (match parseElems f rtail with
         | some (l, r2) => some (j :: l, r2)
         | none => none) := by
  rw [parseElems_step, hv]
  dsimp only
  rw [hpeek]
  simp

theorem parseElems_last_go (f : Nat) (cs r rtail : List Char) (j : Json)
    (hv : parseVal f cs = some (j, r)) (hpeek : skipWs r = ']' :: rtail) :
    parseElems (f + 1) cs = some ([j], rtail) := by
  rw [parseElems_step, hv]
  dsimp only
  rw [hpeek]
  simp

theorem pelems_succ (f : Nat) (hV : PvalStmt f) (hE : PelemsStmt f) :
    PelemsStmt (f + 1) := by
  intro ind x xs ws tws rest hsz hws htws
  have hwsind : ∀ c ∈ ws ++ indentChars ind, isJsonWs c = true := by
    intro c hc
    rcases List.mem_append.mp hc with h | h
    · exact hws c h
    · exact indentChars_ws ind c h
  cases xs with
  | nil =>
    have hszx : jsize x < f := by
      rw [show jsizeL (x :: []) = 1 + jsize x + jsizeL [] from by simp [jsizeL]] at hsz
      rw [show jsizeL ([] : List Json) = 0 from by simp [jsizeL]] at hsz
      omega
    rw [show ws ++ (printItems ind x [] ++ (tws ++ (']' :: rest)))
        = (ws ++ indentChars ind) ++ (printVal ind x ++ (tws ++ (']' :: rest)))
        from by simp [printItems]]
    have hrestok : restOk (tws ++ (']' :: rest)) = true :=
      restOk_ws_append tws _ htws (by rfl)
    exact parseElems_last_go f _ _ rest x
      (hV ind x (ws ++ indentChars ind) (tws ++ (']' :: rest)) hszx hwsind hrestok)
      (skipWs_to_head tws ']' rest htws (by decide))
  | cons y ys =>
    have hszx : jsize x < f := by
      rw [show jsizeL (x :: y :: ys) = 1 + jsize x + jsizeL (y :: ys) from by
        simp [jsizeL]] at hsz
      omega
    have hszys : jsizeL (y :: ys) < f := by
      rw [show jsizeL (x :: y :: ys) = 1 + jsize x + jsizeL (y :: ys) from by
        simp [jsizeL]] at hsz
      omega
    rw [show ws ++ (printItems ind x (y :: ys) ++ (tws ++ (']' :: rest)))
        = (ws ++ indentChars ind)
          ++ (printVal ind x
            ++ (',' :: ('\n' :: (printItems ind y ys ++ (tws ++ (']' :: rest))))))
        from by simp [printItems]]
    rw [parseElems_comma_go f _ _
        ('\n' :: (printItems ind y ys ++ (tws ++ (']' :: rest)))) x
      (hV ind x (ws ++ indentChars ind) _ hszx hwsind (by rfl))
      (skipWs_nonws ',' _ (by decide))]
    have hE2 : parseElems f ('\n' :: (printItems ind y ys ++ (tws ++ (']' :: rest))))
        = some (y :: ys, rest) := by
      have := hE ind y ys ['\n'] tws rest hszys
        (by intro c hc
            rcases List.mem_cons.mp hc with rfl | hc'
            · decide
            · simp at hc') htws
      simpa using this
    rw [hE2]

theorem parseFields_field_go (f : Nat) (cs cs2 r r2 rv : List Char)
    (k : List Char) (v : Json)
    (hq : skipWs cs = '"' :: cs2)
    (hk : parseStringBody cs2 = some (k, r))
    (hc : skipWs r = ':' :: r2)
    (hv : parseVal f r2 = some (v, rv)) :
    parseFields (f + 1) cs
      = (match skipWs rv with
         | c3 :: r3 =>
           if c3 = ',' then
             match parseFields f r3 with
             | some (l, r4) => some ((String.mk k, v) :: l, r4)
             | none => none
           else if c3 = '}' then some ([(String.mk k, v)], r3)
           else none
         | [] => none) := by
  rw [parseFields_step, hq]
  dsimp only
  rw [if_pos rfl, hk]
  dsimp only
  rw [hc]
  dsimp only
  rw [if_pos rfl, hv]

theorem pfields_succ (f : Nat) (hV : PvalStmt f) (hF : PfieldsStmt f) :
    PfieldsStmt (f + 1) := by
  intro ind k v ps ws tws rest hsz hws htws
  have hwsind : ∀ c ∈ ws ++ indentChars ind, isJsonWs c = true := by
    intro c hc
    rcases List.mem_append.mp hc with h | h
    · exact hws c h
    · exact indentChars_ws ind c h
  cases ps with
  | nil =>
    have hszv : jsize v < f := by
      rw [show jsizeF ((k, v) :: []) = 1 + jsize v + jsizeF [] from by
        simp [jsizeF]] at hsz
      rw [show jsizeF ([] : List (String × Json)) = 0 from by simp [jsizeF]] at hsz
      omega
    rw [show ws ++ (printFields ind k v [] ++ (tws ++ ('}' :: rest)))
        = (ws ++ indentChars ind)
          ++ ('"' :: (escapeChars k.data
            ++ ('"' :: (':' :: (' ' :: (printVal ind v ++ (tws ++ ('}' :: rest))))))))
        from by simp [printFields]]
    have hrestok : restOk (tws ++ ('}' :: rest)) = true :=
      restOk_ws_append tws _ htws (by rfl)
    have hval : parseVal f (' ' :: (printVal ind v ++ (tws ++ ('}' :: rest))))
        = some (v, tws ++ ('}' :: rest)) := by
      have := hV ind v [' '] (tws ++ ('}' :: rest)) hszv
        (by intro c hc
            rcases List.mem_cons.mp hc with rfl | hc'
            · decide
            · simp at hc') hrestok
      simpa using this
    rw [parseFields_field_go f _ _ _ _ _ k.data v
      (skipWs_to_head (ws ++ indentChars ind) '"' _ hwsind (by decide))
      (parseStringBody_escape k.data _)
      (skipWs_nonws ':' _ (by decide))
      hval]
    rw [skipWs_to_head tws '}' rest htws (by decide)]
    simp
  | cons q qs =>
    obtain ⟨k2, v2⟩ := q
    have hszv : jsize v < f := by
      rw [show jsizeF ((k, v) :: (k2, v2) :: qs)
          = 1 + jsize v + jsizeF ((k2, v2) :: qs) from by simp [jsizeF]] at hsz
      omega
    have hszqs : jsizeF ((k2, v2) :: qs) < f := by
      rw [show jsizeF ((k, v) :: (k2, v2) :: qs)
          = 1 + jsize v + jsizeF ((k2, v2) :: qs) from by simp [jsizeF]] at hsz
      omega
    rw [show ws ++ (printFields ind k v ((k2, v2) :: qs) ++ (tws ++ ('}' :: rest)))
        = (ws ++ indentChars ind)
          ++ ('"' :: (escapeChars k.data
            ++ ('"' :: (':' :: (' ' :: (printVal ind v
              ++ (',' :: ('\n' :: (printFields ind k2 v2 qs ++ (tws ++ ('}' :: rest)))))))))))
        from by simp [printFields]]
    have hval : parseVal f (' ' :: (printVal ind v
          ++ (',' :: ('\n' :: (printFields ind k2 v2 qs ++ (tws ++ ('}' :: rest)))))))
        = some (v, ',' :: ('\n' :: (printFields ind k2 v2 qs ++ (tws ++ ('}' :: rest))))) := by
      have := hV ind v [' ']
        (',' :: ('\n' :: (printFields ind k2 v2 qs ++ (tws ++ ('}' :: rest))))) hszv
        (by intro c hc
            rcases List.mem_cons.mp hc with rfl | hc'
            · decide
            · simp at hc') (by rfl)
      simpa using this
    rw [parseFields_field_go f _ _ _ _ _ k.data v
      (skipWs_to_head (ws ++ indentChars ind) '"' _ hwsind (by decide))
      (parseStringBody_escape k.data _)
      (skipWs_nonws ':' _ (by decide))
      hval]
    rw [skipWs_nonws ',' _ (by decide)]
    have hF2 : parseFields f ('\n' :: (printFields ind k2 v2 qs ++ (tws ++ ('}' :: rest))))
        = some ((k2, v2) :: qs, rest) := by
      have := hF ind k2 v2 qs ['\n'] tws rest hszqs
        (by intro c hc
            rcases List.mem_cons.mp hc with rfl | hc'
            · decide
            · simp at hc') htws
      simpa using this
    simp only [hF2]
    simp

theorem parse_print_all : ∀ fuel : Nat,
    PvalStmt fuel ∧ PelemsStmt fuel ∧ PfieldsStmt fuel := by
  intro fuel
  induction fuel with
  | zero =>
    refine ⟨?_, ?_, ?_⟩
    · intro ind j ws rest hsz _ _
      exact absurd hsz (by have := jsize_pos j; omega)
    · intro ind x xs ws tws rest hsz _ _
      have h1 : 1 ≤ jsizeL (x :: xs) := by
        rw [show jsizeL (x :: xs) = 1 + jsize x + jsizeL xs from by simp [jsizeL]]
        omega
      exact absurd hsz (by omega)
    · intro ind k v ps ws tws rest hsz _ _
      have h1 : 1 ≤ jsizeF ((k, v) :: ps) := by
        rw [show jsizeF ((k, v) :: ps) = 1 + jsize v + jsizeF ps from by simp [jsizeF]]
        omega
      exact absurd hsz (by omega)
  | succ f ih =>
    exact ⟨pval_succ f ih.2.1 ih.2.2, pelems_succ f ih.1 ih.2.1,
      pfields_succ f ih.1 ih.2.2⟩

mutual

theorem jsize_le_printVal (ind : Nat) (j : Json) :
    jsize j ≤ (printVal ind j).length := by
  cases j with
  | null => simp [jsize, printVal]
  | bool b => cases b <;> simp [jsize, printVal]
  | num i =>
    have h1 : 1 ≤ (intChars i).length := by
      by_cases hi : i < 0
      · simp [intChars, hi]
      · simp only [intChars, hi, if_false]
        exact List.length_pos.mpr (natChars_ne_nil _)
    have h2 : jsize (Json.num i) = 1 := by simp [jsize]
    have h3 : printVal ind (Json.num i) = intChars i := by simp [printVal]
    rw [h2, h3]
    exact h1
  | str s => simp [jsize, printVal]
  | arr l =>
    cases l with
    | nil => simp [jsize, jsizeL, printVal]
    | cons x xs =>
      have h := jsizeL_le_printItems (ind + 2) x xs
      have h2 : jsize (Json.arr (x :: xs)) = 1 + jsizeL (x :: xs) := by simp [jsize]
      have h3 : (printVal ind (Json.arr (x :: xs))).length
          = (printItems (ind + 2) x xs).length + ind + 4 := by
        simp [printVal, indentChars]
        omega
      omega
  | obj l =>
    cases l with
    | nil => simp [jsize, jsizeF, printVal]
    | cons p ps =>
      obtain ⟨k, v⟩ := p
      have h := jsizeF_le_printFields (ind + 2) k v ps
      have h2 : jsize (Json.obj ((k, v) :: ps)) = 1 + jsizeF ((k, v) :: ps) := by
        simp [jsize]
      have h3 : (printVal ind (Json.obj ((k, v) :: ps))).length
          = (printFields (ind + 2) k v ps).length + ind + 4 := by
        simp [printVal, indentChars]
        omega
      omega
termination_by sizeOf j

theorem jsizeL_le_printItems (ind : Nat) (x : Json) (xs : List Json) :
    jsizeL (x :: xs) ≤ (printItems ind x xs).length + 1 := by
  cases xs with
  | nil =>
    have h := jsize_le_printVal ind x
    have h2 : jsizeL [x] = 1 + jsize x := by simp [jsizeL]
    have h3 : (printItems ind x []).length = ind + (printVal ind x).length := by
      simp [printItems, indentChars]
    omega
  | cons y ys =>
    have h := jsize_le_printVal ind x
    have hrec := jsizeL_le_printItems ind y ys
    have h2 : jsizeL (x :: y :: ys) = 1 + jsize x + jsizeL (y :: ys) := by simp [jsizeL]
    have h3 : (printItems ind x (y :: ys)).length
        = ind + (printVal ind x).length + 2 + (printItems ind y ys).length := by
      simp [printItems, indentChars]
      omega
    omega
termination_by 1 + sizeOf x + sizeOf xs

theorem jsizeF_le_printFields (ind : Nat) (k : String) (v : Json)
    (ps : List (String × Json)) :
    jsizeF ((k, v) :: ps) ≤ (printFields ind k v ps).length + 1 := by
  cases ps with
  | nil =>
    have h := jsize_le_printVal ind v
    have h2 : jsizeF [(k, v)] = 1 + jsize v := by simp [jsizeF]
    have h3 : (printFields ind k v []).length
        = ind + (escapeChars k.data).length + 4 + (printVal ind v).length := by
      simp [printFields, indentChars]
      omega
    omega
  | cons q qs =>
    obtain ⟨k2, v2⟩ := q
    have h := jsize_le_printVal ind v
    have hrec := jsizeF_le_printFields ind k2 v2 qs
    have h2 : jsizeF ((k, v) :: (k2, v2) :: qs)
        = 1 + jsize v + jsizeF ((k2, v2) :: qs) := by simp [jsizeF]
    have h3 : (printFields ind k v ((k2, v2) :: qs)).length
        = ind + (escapeChars k.data).length + 6 + (printVal ind v).length
          + (printFields ind k2 v2 qs).length := by
      simp [printFields, indentChars]
      omega
    omega
termination_by 1 + sizeOf v + sizeOf ps

end

theorem parseJson_stringifyPretty (j : Json) :
    parseJson (stringifyPretty j) = some j := by
  have hb : jsize j < (printVal 0 j).length + 1 :=
    Nat.lt_succ_of_le (jsize_le_printVal 0 j)
  have h := (parse_print_all ((printVal 0 j).length + 1)).1 0 j [] [] hb
    (by simp) (by rfl)
  rw [List.nil_append, List.append_nil] at h
  show (match parseVal ((printVal 0 j).length + 1) (printVal 0 j) with
        | some (jj, r) => if skipWs r = [] then some jj else none
        | none => none) = some j
  rw [h]
  rfl

/- ===================== claim C8 ===================== -/

/-- C8: a JSON payload stored by a webhook endpoint is written as
JSON.stringify(payload, null, 2); retrieving that file through
GET /admin/payloads/:filename parses the pretty-printed text back to a
structurally identical JSON value, which the endpoint serves as JSON. -/
theorem payload_roundtrip (fs : List (List Char) → Option FsEntry)
    (base : List (List Char)) (filename : String) (j : Json)
    (hguard : hasTraversal filename = false)
    (hfile : fs (joinNorm base filename.data)
      = some (FsEntry.file (stringifyPretty j))) :
    getPayloadByFilename fs base filename = PayloadResponse.okJson j := by
  unfold getPayloadByFilename
  rw [hguard]
  simp only [Bool.false_eq_true, if_false]
  rw [hfile]
  dsimp only
  rw [parseJson_stringifyPretty]

theorem payload_roundtrip_witness :
    hasTraversal "p.j" = false ∧
    demoFs2 (joinNorm basePayloads ("p.j".data))
      = some (FsEntry.file (stringifyPretty demoJson)) ∧
    getPayloadByFilename demoFs2 basePayloads "p.j"
      = PayloadResponse.okJson demoJson := by
  have hfile : demoFs2 (joinNorm basePayloads ("p.j".data))
      = some (FsEntry.file (stringifyPretty demoJson)) := by
    rw [show joinNorm basePayloads ("p.j".data)
        = basePayloads ++ [['p', '.', 'j']] from by decide]
    simp [demoFs2]
  exact ⟨by decide, hfile,
    payload_roundtrip demoFs2 basePayloads "p.j" demoJson (by decide) hfile⟩
